import Mathlib

/-!
# Admission chain executor (`pkg/admission/chain.go`)

A shallow embedding of `chainAdmissionHandler` and its three methods `Admit`,
`Validate` and `Handles`.

The chain calls four collaborators that are declared outside `chain.go`:
`Operation`, `Attributes`, `NamedHandler` (with the optional `MutationInterface`
and `ValidationInterface`) and the metrics sink `Metrics`.  They are modelled
below from the specification.  Calls into the collaborators are made explicit:

* the Attributes value `a` is a reference in Go; here its state is threaded
  through the handler invocations;
* every call of `mutator.Admit(a)` / `validator.Validate(a)` and every call of
  `Metrics.ObserveAdmissionController` / `Metrics.ObserveAdmissionStep` is
  appended to an event trace, in program order;
* the `elapsed` argument of the two observations (a difference of wall-clock
  readings) is not part of the model.
-/

namespace admission

/-- Modelled from the spec: the `Operation` enumeration, "a finite enumerated tag;
comparable", with the four tags the specification lists. -/
inductive Operation where
  | Create
  | Update
  | Delete
  | Connect
  deriving DecidableEq, Repr

/-- Modelled from the spec: the `Attributes` of one request, with read-only accessors
for the operation and the resource identity and a proposed object that handlers may
rewrite.  `Obj` is the type of the proposed object. -/
structure Attributes (Obj : Type) where
  operation : Operation
  resource : String
  object : Obj
  deriving DecidableEq, Repr

/-- The accessor `a.GetOperation()`. -/
def Attributes.GetOperation {Obj : Type} (a : Attributes Obj) : Operation :=
  a.operation

/-- Modelled from the spec: a phase method of a handler (`Admit(a) error` of
`MutationInterface`, `Validate(a) error` of `ValidationInterface`).  It receives the
Attributes, may rewrite the proposed object, and returns an error (`none` is Go's
`nil`). -/
abbrev Method (Obj Err : Type) := Attributes Obj → Obj × Option Err

/-- Modelled from the spec: a `NamedHandler`: a name, the operation predicate
`Handles`, and zero or more of the two capabilities.  `Admit = some m` stands for a
successful type assertion `handler.(MutationInterface)`, `Validate = some v` for
`handler.(ValidationInterface)`. -/
structure NamedHandler (Obj Err : Type) where
  name : String
  Handles : Operation → Bool
  Admit : Option (Method Obj Err)
  Validate : Option (Method Obj Err)

/-- The Attributes after a phase method ran on them: the proposed object is the one
the method left, the read-only fields are untouched. -/
def Method.after {Obj Err : Type} (m : Method Obj Err) (a : Attributes Obj) :
    Attributes Obj :=
  { a with object := (m a).1 }

/-- The error a phase method returns on the given Attributes. -/
def Method.error {Obj Err : Type} (m : Method Obj Err) (a : Attributes Obj) :
    Option Err :=
  (m a).2

/-- The calls the executor makes to its collaborators, in program order.
`invoke idx name a ret` is the call `mutator.Admit(a)` / `validator.Validate(a)` on
the handler at position `idx` of the chain, with the Attributes passed in and the
error returned.  The other two are the calls to the metrics sink, with the state of
the Attributes at the time of the call. -/
inductive Event (Obj Err : Type) where
  | invoke (idx : Nat) (name : String) (a : Attributes Obj) (ret : Option Err)
  | ObserveAdmissionController (failed : Bool) (idx : Nat) (name : String)
      (a : Attributes Obj)
  | ObserveAdmissionStep (failed : Bool) (a : Attributes Obj) (step : String)
  deriving DecidableEq, Repr

/-- The constant `stepValidating`. -/
def stepValidating : String := "validating"

/-- The constant `stepMutating`. -/
def stepMutating : String := "mutating"

/-- What one run of the `for` loop leaves behind: the value returned, the final value
of the local variable `err` (read by the deferred closure), the Attributes and the
events emitted. -/
structure LoopResult (Obj Err : Type) where
  ret : Option Err
  err : Option Err
  attrs : Attributes Obj
  trace : List (Event Obj Err)
  deriving DecidableEq, Repr

/-- What a call of `Admit` or `Validate` leaves behind: the error returned, the
Attributes and the events emitted. -/
structure CallResult (Obj Err : Type) where
  ret : Option Err
  attrs : Attributes Obj
  trace : List (Event Obj Err)
  deriving DecidableEq, Repr

/-- A chain of admission handlers. -/
abbrev chainAdmissionHandler (Obj Err : Type) := List (NamedHandler Obj Err)

/-- The function `NewChainHandler`. -/
def NewChainHandler {Obj Err : Type} (handlers : List (NamedHandler Obj Err)) :
    chainAdmissionHandler Obj Err :=
  handlers

/-- The `for` loop of `Admit` (lines 43-56), from position `idx` on, with the local
variable `err` and the Attributes as they stand. -/
def admitLoop {Obj Err : Type} :
    List (NamedHandler Obj Err) → Nat → Option Err → Attributes Obj → LoopResult Obj Err
  | [], _, err, a => ⟨none, err, a, []⟩
  | handler :: rest, idx, err, a =>
    if !handler.Handles a.GetOperation then
      admitLoop rest (idx + 1) err a
    else
      match handler.Admit with
      | some mutator =>
        let err1 := mutator.error a
        let a1 := mutator.after a
        let evs := [Event.invoke idx handler.name a err1,
                    Event.ObserveAdmissionController err1.isSome idx handler.name a1]
        if err1.isSome then
          ⟨err1, err1, a1, evs⟩
        else
          let r := admitLoop rest (idx + 1) err1 a1
          ⟨r.ret, r.err, r.attrs, evs ++ r.trace⟩
      | none => admitLoop rest (idx + 1) err a

/-- The method `Admit`: the loop, then the deferred `ObserveAdmissionStep`. -/
def chainAdmissionHandler.Admit {Obj Err : Type} (admissionHandler : chainAdmissionHandler Obj Err)
    (a : Attributes Obj) : CallResult Obj Err :=
  let r := admitLoop admissionHandler 0 none a
  ⟨r.ret, r.attrs, r.trace ++ [Event.ObserveAdmissionStep r.err.isSome r.attrs stepMutating]⟩

/-- The `for` loop of `Validate` (lines 67-80). -/
def validateLoop {Obj Err : Type} :
    List (NamedHandler Obj Err) → Nat → Option Err → Attributes Obj → LoopResult Obj Err
  | [], _, err, a => ⟨none, err, a, []⟩
  | handler :: rest, idx, err, a =>
    if !handler.Handles a.GetOperation then
      validateLoop rest (idx + 1) err a
    else
      match handler.Validate with
      | some validator =>
        let err1 := validator.error a
        let a1 := validator.after a
        let evs := [Event.invoke idx handler.name a err1,
                    Event.ObserveAdmissionController err1.isSome idx handler.name a1]
        if err1.isSome then
          ⟨err1, err1, a1, evs⟩
        else
          let r := validateLoop rest (idx + 1) err1 a1
          ⟨r.ret, r.err, r.attrs, evs ++ r.trace⟩
      | none => validateLoop rest (idx + 1) err a

/-- The method `Validate`: the loop, then the deferred `ObserveAdmissionStep`. -/
def chainAdmissionHandler.Validate {Obj Err : Type} (admissionHandler : chainAdmissionHandler Obj Err)
    (a : Attributes Obj) : CallResult Obj Err :=
  let r := validateLoop admissionHandler 0 none a
  ⟨r.ret, r.attrs, r.trace ++ [Event.ObserveAdmissionStep r.err.isSome r.attrs stepValidating]⟩

/-- The method `Handles` of the chain (lines 84-91). -/
def chainAdmissionHandler.Handles {Obj Err : Type} :
    chainAdmissionHandler Obj Err → Operation → Bool
  | [], _ => false
  | handler :: rest, operation =>
    if handler.Handles operation then true
    else chainAdmissionHandler.Handles rest operation

/-! ## Vocabulary for stating the properties -/

/-- The two phases: which capability of a handler a phase selects. -/
abbrev Capability (Obj Err : Type) := NamedHandler Obj Err → Option (Method Obj Err)

/-- The loop shared by the two phases, with the capability as a parameter.  It is
shown below to be `admitLoop` at `NamedHandler.Admit` and `validateLoop` at
`NamedHandler.Validate`; it is only used to prove facts about both at once. -/
def phaseLoop {Obj Err : Type} (cap : Capability Obj Err) :
    List (NamedHandler Obj Err) → Nat → Option Err → Attributes Obj → LoopResult Obj Err
  | [], _, err, a => ⟨none, err, a, []⟩
  | handler :: rest, idx, err, a =>
    if !handler.Handles a.GetOperation then
      phaseLoop cap rest (idx + 1) err a
    else
      match cap handler with
      | some method =>
        let err1 := method.error a
        let a1 := method.after a
        let evs := [Event.invoke idx handler.name a err1,
                    Event.ObserveAdmissionController err1.isSome idx handler.name a1]
        if err1.isSome then
          ⟨err1, err1, a1, evs⟩
        else
          let r := phaseLoop cap rest (idx + 1) err1 a1
          ⟨r.ret, r.err, r.attrs, evs ++ r.trace⟩
      | none => phaseLoop cap rest (idx + 1) err a

/-- The phase method a handler contributes to a call with operation `op`: the method
of the phase's capability when the handler accepts `op`, nothing otherwise. -/
def applicable {Obj Err : Type} (cap : Capability Obj Err) (op : Operation)
    (h : NamedHandler Obj Err) : Option (Method Obj Err) :=
  if h.Handles op then cap h else none

/-- The Attributes as left by the handlers `hs`, each applicable one having run its
phase method in order. -/
def threaded {Obj Err : Type} (cap : Capability Obj Err) :
    List (NamedHandler Obj Err) → Attributes Obj → Attributes Obj
  | [], a => a
  | h :: rest, a =>
    match applicable cap a.operation h with
    | some m => threaded cap rest (m.after a)
    | none => threaded cap rest a

/-- The chain position of an invocation event. -/
def Event.invokedIdx {Obj Err : Type} : Event Obj Err → Option Nat
  | .invoke idx _ _ _ => some idx
  | _ => none

/-- The chain position of a per-handler observation. -/
def Event.observedIdx {Obj Err : Type} : Event Obj Err → Option Nat
  | .ObserveAdmissionController _ idx _ _ => some idx
  | _ => none

/-- The content of a phase observation: failed flag, Attributes, phase label. -/
def Event.step? {Obj Err : Type} : Event Obj Err → Option (Bool × Attributes Obj × String)
  | .ObserveAdmissionStep failed a step => some (failed, a, step)
  | _ => none

/-- The positions of the handlers invoked, in the order of invocation. -/
def invokedIdxs {Obj Err : Type} (tr : List (Event Obj Err)) : List Nat :=
  tr.filterMap Event.invokedIdx

/-- The positions named by the per-handler observations, in the order of emission. -/
def observedIdxs {Obj Err : Type} (tr : List (Event Obj Err)) : List Nat :=
  tr.filterMap Event.observedIdx

/-- The phase observations of a trace, in the order of emission. -/
def stepObservations {Obj Err : Type} (tr : List (Event Obj Err)) :
    List (Bool × Attributes Obj × String) :=
  tr.filterMap Event.step?

/-! ## Concrete handlers used to exercise the statements -/

/-- A request to create a pod whose proposed object is the number 0. -/
def exAttrs : Attributes Nat := ⟨Operation.Create, "pods", 0⟩

/-- A mutator and validator for every operation that adds one to the object. -/
def good : NamedHandler Nat String :=
  ⟨"good", fun _ => true, some (fun a => (a.object + 1, none)),
    some (fun a => (a.object, none))⟩

/-- A mutator and validator for every operation that rewrites the object and fails. -/
def bad : NamedHandler Nat String :=
  ⟨"bad", fun _ => true, some (fun a => (a.object + 10, some "denied")),
    some (fun a => (a.object, some "invalid"))⟩

/-- A mutator and validator for every operation that succeeds. -/
def probe : NamedHandler Nat String :=
  ⟨"probe", fun _ => true, some (fun a => (a.object + 100, none)),
    some (fun a => (a.object, none))⟩

/-- A handler with both capabilities that only accepts updates. -/
def updateOnly : NamedHandler Nat String :=
  ⟨"updateOnly", fun op => decide (op = Operation.Update),
    some (fun a => (a.object + 1000, some "update denied")),
    some (fun a => (a.object, some "update invalid"))⟩

/-- A handler that accepts every operation and offers validation only. -/
def validatorOnly : NamedHandler Nat String :=
  ⟨"validatorOnly", fun _ => true, none, some (fun a => (a.object, some "invalid"))⟩

/-- A handler that accepts every operation and offers mutation only. -/
def mutatorOnly : NamedHandler Nat String :=
  ⟨"mutatorOnly", fun _ => true, some (fun a => (a.object + 7, none)), none⟩

/-- The chain of the short-circuit scenario. -/
def exChain : chainAdmissionHandler Nat String := NewChainHandler [good, bad, probe]

/-- A chain in which every handler is invoked and succeeds. -/
def okChain : chainAdmissionHandler Nat String := NewChainHandler [good, probe, good]

/-- A chain with a handler that rejects the operation and handlers of one capability. -/
def mixedChain : chainAdmissionHandler Nat String :=
  NewChainHandler [updateOnly, validatorOnly, mutatorOnly, good]

/-- One invocation of a phase method together with the per-handler observation that
follows it: position and name of the handler, the Attributes passed in, the error
returned, the Attributes as the method left them. -/
structure Call (Obj Err : Type) where
  idx : Nat
  name : String
  input : Attributes Obj
  ret : Option Err
  output : Attributes Obj
  deriving DecidableEq, Repr

/-- The two events of one invocation: the call, then its per-handler observation with
`failed` set iff the call returned an error. -/
def Call.events {Obj Err : Type} (c : Call Obj Err) : List (Event Obj Err) :=
  [Event.invoke c.idx c.name c.input c.ret,
   Event.ObserveAdmissionController c.ret.isSome c.idx c.name c.output]

/-- The record `c` is an invocation of the phase method of the handler at position
`c.idx` of the chain: the handler accepts the operation, has the capability, and the
recorded error and resulting Attributes are what its method gives on the input. -/
def Call.performedBy {Obj Err : Type} (cap : Capability Obj Err)
    (chain : List (NamedHandler Obj Err)) (c : Call Obj Err) : Prop :=
  ∃ (h : NamedHandler Obj Err) (m : Method Obj Err),
    chain[c.idx]? = some h ∧ h.Handles c.input.operation = true ∧ cap h = some m ∧
    c.name = h.name ∧ c.ret = m.error c.input ∧ c.output = m.after c.input

/-- The invocations a phase performs on a chain, from position `idx` on: used as the
explicit list in the proofs about traces. -/
def callsOf {Obj Err : Type} (cap : Capability Obj Err) :
    List (NamedHandler Obj Err) → Nat → Attributes Obj → List (Call Obj Err)
  | [], _, _ => []
  | h :: rest, idx, a =>
    match applicable cap a.operation h with
    | none => callsOf cap rest (idx + 1) a
    | some m =>
      ⟨idx, h.name, a, m.error a, m.after a⟩ ::
        (if (m.error a).isSome then [] else callsOf cap rest (idx + 1) (m.after a))

/-- A call of a phase with the capability and the phase label as parameters.  It is
shown below to be `Admit` at the mutation capability and `stepMutating`, and
`Validate` at the validation capability and `stepValidating`; it is only used to
prove facts about both at once. -/
def runPhase {Obj Err : Type} (cap : Capability Obj Err) (step : String)
    (chain : List (NamedHandler Obj Err)) (a : Attributes Obj) : CallResult Obj Err :=
  let r := phaseLoop cap chain 0 none a
  ⟨r.ret, r.attrs, r.trace ++ [Event.ObserveAdmissionStep r.err.isSome r.attrs step]⟩

/-- What an invocation event says: position and name of the handler invoked and
whether the call returned an error. -/
def Event.invocation? {Obj Err : Type} : Event Obj Err → Option (Nat × String × Bool)
  | .invoke idx name _ ret => some (idx, name, ret.isSome)
  | _ => none

/-- What a per-handler observation says: position and name of the handler observed and
the failed flag. -/
def Event.observation? {Obj Err : Type} : Event Obj Err → Option (Nat × String × Bool)
  | .ObserveAdmissionController failed idx name _ => some (idx, name, failed)
  | _ => none

/-- The handler invocations of a trace, in order. -/
def invocations {Obj Err : Type} (tr : List (Event Obj Err)) : List (Nat × String × Bool) :=
  tr.filterMap Event.invocation?

/-- The per-handler observations of a trace, in order. -/
def controllerObservations {Obj Err : Type} (tr : List (Event Obj Err)) :
    List (Nat × String × Bool) :=
  tr.filterMap Event.observation?

/-- The handlers of the chain at the given positions, in the order of the positions. -/
def handlersAt {Obj Err : Type} (chain : List (NamedHandler Obj Err)) (idxs : List Nat) :
    List (NamedHandler Obj Err) :=
  idxs.filterMap (fun k => chain[k]?)

/-- The handler with its validation method (if any) put in place of its mutation
method (if any). -/
def NamedHandler.validatorAsMutator {Obj Err : Type} (h : NamedHandler Obj Err) :
    NamedHandler Obj Err :=
  { h with Admit := h.Validate }

/-- The chain in which every handler has its validation method in place of its
mutation method. -/
def validatorsAsMutators {Obj Err : Type} (chain : chainAdmissionHandler Obj Err) :
    chainAdmissionHandler Obj Err :=
  chain.map NamedHandler.validatorAsMutator

/-- The event with the phase label of a phase observation replaced; the other events
are left as they are. -/
def Event.relabel {Obj Err : Type} (step : String) : Event Obj Err → Event Obj Err
  | .ObserveAdmissionStep failed a _ => .ObserveAdmissionStep failed a step
  | e => e

/-- What a per-handler observation reports to the metrics sink, the position in the
chain left out: the failed flag, the name of the handler and the Attributes. -/
def Event.observed? {Obj Err : Type} : Event Obj Err → Option (Bool × String × Attributes Obj)
  | .ObserveAdmissionController failed _ name a => some (failed, name, a)
  | _ => none

/-- The per-handler observations of a trace as the metrics sink receives them, in the
order of emission. -/
def observations {Obj Err : Type} (tr : List (Event Obj Err)) :
    List (Bool × String × Attributes Obj) :=
  tr.filterMap Event.observed?

/-- What the per-handler observation of an invocation reports. -/
def Call.observation {Obj Err : Type} (c : Call Obj Err) : Bool × String × Attributes Obj :=
  (c.ret.isSome, c.name, c.output)

/-- A handler takes part in a phase on operation `op` when it accepts `op` and has the
capability of the phase; otherwise it is inert for that call. -/
def takesPart {Obj Err : Type} (cap : Capability Obj Err) (op : Operation)
    (h : NamedHandler Obj Err) : Bool :=
  h.Handles op && (cap h).isSome

/-- The chain with the handlers that are inert for the phase and the operation
deleted. -/
def withoutInert {Obj Err : Type} (cap : Capability Obj Err) (op : Operation)
    (chain : chainAdmissionHandler Obj Err) : chainAdmissionHandler Obj Err :=
  chain.filter (takesPart cap op)

/-- The handlers a phase invokes on a chain, in the order of invocation: used as the
explicit list in the proofs that compare two chains. -/
def calledHandlers {Obj Err : Type} (cap : Capability Obj Err) :
    List (NamedHandler Obj Err) → Attributes Obj → List (NamedHandler Obj Err)
  | [], _ => []
  | h :: rest, a =>
    match applicable cap a.operation h with
    | none => calledHandlers cap rest a
    | some m =>
      h :: (if (m.error a).isSome then [] else calledHandlers cap rest (m.after a))

/-- A chain of two handlers that are both inert for the mutation of a Create. -/
def inertChain : chainAdmissionHandler Nat String :=
  NewChainHandler [updateOnly, validatorOnly]

/-! ## Facts shared by the proofs -/

theorem admitLoop_eq_phaseLoop {Obj Err : Type} (hs : List (NamedHandler Obj Err)) :
    ∀ (idx : Nat) (err : Option Err) (a : Attributes Obj),
      admitLoop hs idx err a = phaseLoop NamedHandler.Admit hs idx err a := by
  induction hs with
  | nil => intro idx err a; rfl
  | cons h rest ih =>
    intro idx err a
    simp only [admitLoop, phaseLoop, ih]

theorem validateLoop_eq_phaseLoop {Obj Err : Type} (hs : List (NamedHandler Obj Err)) :
    ∀ (idx : Nat) (err : Option Err) (a : Attributes Obj),
      validateLoop hs idx err a = phaseLoop NamedHandler.Validate hs idx err a := by
  induction hs with
  | nil => intro idx err a; rfl
  | cons h rest ih =>
    intro idx err a
    simp only [validateLoop, phaseLoop, ih]


theorem applicable_eq_some_iff {Obj Err : Type} (cap : Capability Obj Err) (op : Operation)
    (h : NamedHandler Obj Err) (m : Method Obj Err) :
    applicable cap op h = some m ↔ h.Handles op = true ∧ cap h = some m := by
  unfold applicable
  by_cases hh : h.Handles op = true <;> simp [hh]

theorem applicable_eq_none_iff {Obj Err : Type} (cap : Capability Obj Err) (op : Operation)
    (h : NamedHandler Obj Err) :
    applicable cap op h = none ↔ h.Handles op = false ∨ cap h = none := by
  unfold applicable
  by_cases hh : h.Handles op = true <;> simp [hh]

theorem after_operation {Obj Err : Type} (m : Method Obj Err) (a : Attributes Obj) :
    (m.after a).operation = a.operation := rfl

theorem after_resource {Obj Err : Type} (m : Method Obj Err) (a : Attributes Obj) :
    (m.after a).resource = a.resource := rfl

theorem phaseLoop_skip {Obj Err : Type} (cap : Capability Obj Err)
    (h : NamedHandler Obj Err) (rest : List (NamedHandler Obj Err)) (idx : Nat)
    (err : Option Err) (a : Attributes Obj) (hn : applicable cap a.operation h = none) :
    phaseLoop cap (h :: rest) idx err a = phaseLoop cap rest (idx + 1) err a := by
  rw [applicable_eq_none_iff] at hn
  rcases hn with hn | hn
  · simp [phaseLoop, Attributes.GetOperation, hn]
  · by_cases hh : h.Handles a.operation = true <;>
      simp [phaseLoop, Attributes.GetOperation, hn, hh]

theorem phaseLoop_fail {Obj Err : Type} (cap : Capability Obj Err)
    (h : NamedHandler Obj Err) (rest : List (NamedHandler Obj Err)) (idx : Nat)
    (err : Option Err) (a : Attributes Obj) (m : Method Obj Err) (e : Err)
    (hm : applicable cap a.operation h = some m) (he : m.error a = some e) :
    phaseLoop cap (h :: rest) idx err a =
      ⟨some e, some e, m.after a,
        [Event.invoke idx h.name a (some e),
         Event.ObserveAdmissionController true idx h.name (m.after a)]⟩ := by
  rw [applicable_eq_some_iff] at hm
  simp [phaseLoop, Attributes.GetOperation, hm.1, hm.2, he]

theorem phaseLoop_ok {Obj Err : Type} (cap : Capability Obj Err)
    (h : NamedHandler Obj Err) (rest : List (NamedHandler Obj Err)) (idx : Nat)
    (err : Option Err) (a : Attributes Obj) (m : Method Obj Err)
    (hm : applicable cap a.operation h = some m) (he : m.error a = none) :
    phaseLoop cap (h :: rest) idx err a =
      ⟨(phaseLoop cap rest (idx + 1) none (m.after a)).ret,
        (phaseLoop cap rest (idx + 1) none (m.after a)).err,
        (phaseLoop cap rest (idx + 1) none (m.after a)).attrs,
        Event.invoke idx h.name a none ::
          Event.ObserveAdmissionController false idx h.name (m.after a) ::
          (phaseLoop cap rest (idx + 1) none (m.after a)).trace⟩ := by
  rw [applicable_eq_some_iff] at hm
  simp [phaseLoop, Attributes.GetOperation, hm.1, hm.2, he]

theorem threaded_skip {Obj Err : Type} (cap : Capability Obj Err)
    (h : NamedHandler Obj Err) (rest : List (NamedHandler Obj Err)) (a : Attributes Obj)
    (hn : applicable cap a.operation h = none) :
    threaded cap (h :: rest) a = threaded cap rest a := by
  simp [threaded, hn]

theorem threaded_apply {Obj Err : Type} (cap : Capability Obj Err)
    (h : NamedHandler Obj Err) (rest : List (NamedHandler Obj Err)) (a : Attributes Obj)
    (m : Method Obj Err) (hm : applicable cap a.operation h = some m) :
    threaded cap (h :: rest) a = threaded cap rest (m.after a) := by
  simp [threaded, hm]

theorem threaded_operation {Obj Err : Type} (cap : Capability Obj Err)
    (hs : List (NamedHandler Obj Err)) :
    ∀ a : Attributes Obj, (threaded cap hs a).operation = a.operation := by
  induction hs with
  | nil => intro a; rfl
  | cons h rest ih =>
    intro a
    cases hm : applicable cap a.operation h with
    | none => rw [threaded_skip cap h rest a hm, ih]
    | some m => rw [threaded_apply cap h rest a m hm, ih, after_operation]

/-- The local variable `err` holds the returned value when the loop ends, provided it
was `nil` when the loop started. -/
theorem phaseLoop_err_eq_ret {Obj Err : Type} (cap : Capability Obj Err)
    (hs : List (NamedHandler Obj Err)) :
    ∀ (idx : Nat) (a : Attributes Obj),
      (phaseLoop cap hs idx none a).err = (phaseLoop cap hs idx none a).ret := by
  induction hs with
  | nil => intro idx a; rfl
  | cons h rest ih =>
    intro idx a
    cases hm : applicable cap a.operation h with
    | none => rw [phaseLoop_skip cap h rest idx none a hm, ih]
    | some m =>
      cases he : m.error a with
      | none => rw [phaseLoop_ok cap h rest idx none a m hm he]; exact ih _ _
      | some e => rw [phaseLoop_fail cap h rest idx none a m e hm he]

/-- A returned error is the error of the first applicable method that fails on the
Attributes left by the handlers before it, and that invocation is in the trace. -/
theorem phaseLoop_ret_some {Obj Err : Type} (cap : Capability Obj Err)
    (hs : List (NamedHandler Obj Err)) :
    ∀ (idx : Nat) (a : Attributes Obj) (e : Err),
      (phaseLoop cap hs idx none a).ret = some e →
      ∃ (i : Nat) (h : NamedHandler Obj Err) (m : Method Obj Err),
        hs[i]? = some h ∧ applicable cap a.operation h = some m ∧
        m.error (threaded cap (hs.take i) a) = some e ∧
        Event.invoke (idx + i) h.name (threaded cap (hs.take i) a) (some e) ∈
          (phaseLoop cap hs idx none a).trace ∧
        ∀ (j : Nat) (h' : NamedHandler Obj Err) (m' : Method Obj Err), j < i →
          hs[j]? = some h' → applicable cap a.operation h' = some m' →
          m'.error (threaded cap (hs.take j) a) = none := by
  induction hs with
  | nil => intro idx a e hret; simp [phaseLoop] at hret
  | cons h rest ih =>
    intro idx a e hret
    cases hm : applicable cap a.operation h with
    | none =>
      rw [phaseLoop_skip cap h rest idx none a hm] at hret ⊢
      obtain ⟨i, h1, m1, hget, happ, herr, hmem, hfirst⟩ := ih (idx + 1) a e hret
      have hidx : idx + 1 + i = idx + (i + 1) := by omega
      refine ⟨i + 1, h1, m1, by simpa using hget, happ, ?_, ?_, ?_⟩
      · rw [List.take_succ_cons, threaded_skip cap h _ a hm]; exact herr
      · rw [List.take_succ_cons, threaded_skip cap h _ a hm, ← hidx]; exact hmem
      · intro j h' m' hj hgetj happj
        cases j with
        | zero =>
          simp at hgetj
          subst hgetj
          rw [hm] at happj
          cases happj
        | succ j =>
          rw [List.take_succ_cons, threaded_skip cap h _ a hm]
          exact hfirst j h' m' (by omega) (by simpa using hgetj) happj
    | some m =>
      cases he : m.error a with
      | some e0 =>
        rw [phaseLoop_fail cap h rest idx none a m e0 hm he] at hret ⊢
        simp at hret
        subst hret
        refine ⟨0, h, m, by simp, hm, by simpa [threaded] using he, by simp [threaded], ?_⟩
        intro j h' m' hj
        omega
      | none =>
        rw [phaseLoop_ok cap h rest idx none a m hm he] at hret ⊢
        simp only at hret
        obtain ⟨i, h1, m1, hget, happ, herr, hmem, hfirst⟩ :=
          ih (idx + 1) (m.after a) e hret
        rw [after_operation] at happ
        have hidx : idx + 1 + i = idx + (i + 1) := by omega
        refine ⟨i + 1, h1, m1, by simpa using hget, happ, ?_, ?_, ?_⟩
        · rw [List.take_succ_cons, threaded_apply cap h _ a m hm]; exact herr
        · rw [List.take_succ_cons, threaded_apply cap h _ a m hm, ← hidx]
          exact List.mem_cons_of_mem _ (List.mem_cons_of_mem _ hmem)
        · intro j h' m' hj hgetj happj
          cases j with
          | zero =>
            simp at hgetj
            subst hgetj
            rw [hm] at happj
            cases happj
            simpa [threaded] using he
          | succ j =>
            rw [List.take_succ_cons, threaded_apply cap h _ a m hm]
            exact hfirst j h' m' (by omega) (by simpa using hgetj)
              (by rw [after_operation]; exact happj)

/-- The loop returns nil exactly when every applicable method returns nil on the
Attributes left by the handlers before it. -/
theorem phaseLoop_ret_none_iff {Obj Err : Type} (cap : Capability Obj Err)
    (hs : List (NamedHandler Obj Err)) (idx : Nat) (a : Attributes Obj) :
    (phaseLoop cap hs idx none a).ret = none ↔
      ∀ (j : Nat) (h : NamedHandler Obj Err) (m : Method Obj Err),
        hs[j]? = some h → applicable cap a.operation h = some m →
        m.error (threaded cap (hs.take j) a) = none := by
  constructor
  · induction hs generalizing idx a with
    | nil => intro _ j h m hget; simp at hget
    | cons h rest ih =>
      intro hret j h' m' hgetj happj
      cases hm : applicable cap a.operation h with
      | none =>
        rw [phaseLoop_skip cap h rest idx none a hm] at hret
        cases j with
        | zero =>
          simp at hgetj
          subst hgetj
          rw [hm] at happj
          cases happj
        | succ j =>
          rw [List.take_succ_cons, threaded_skip cap h _ a hm]
          exact ih (idx + 1) a hret j h' m' (by simpa using hgetj) happj
      | some m =>
        cases he : m.error a with
        | some e0 =>
          rw [phaseLoop_fail cap h rest idx none a m e0 hm he] at hret
          simp at hret
        | none =>
          rw [phaseLoop_ok cap h rest idx none a m hm he] at hret
          simp only at hret
          cases j with
          | zero =>
            simp at hgetj
            subst hgetj
            rw [hm] at happj
            cases happj
            simpa [threaded] using he
          | succ j =>
            rw [List.take_succ_cons, threaded_apply cap h _ a m hm]
            exact ih (idx + 1) (m.after a) hret j h' m' (by simpa using hgetj)
              (by rw [after_operation]; exact happj)
  · intro hall
    cases hret : (phaseLoop cap hs idx none a).ret with
    | none => rfl
    | some e =>
      obtain ⟨i, h, m, hget, happ, herr, _, _⟩ := phaseLoop_ret_some cap hs idx a e hret
      rw [hall i h m hget happ] at herr
      cases herr


theorem Admit_eq {Obj Err : Type} (chain : chainAdmissionHandler Obj Err)
    (a : Attributes Obj) :
    chain.Admit a =
      ⟨(phaseLoop NamedHandler.Admit chain 0 none a).ret,
        (phaseLoop NamedHandler.Admit chain 0 none a).attrs,
        (phaseLoop NamedHandler.Admit chain 0 none a).trace ++
          [Event.ObserveAdmissionStep (phaseLoop NamedHandler.Admit chain 0 none a).ret.isSome
            (phaseLoop NamedHandler.Admit chain 0 none a).attrs stepMutating]⟩ := by
  simp only [chainAdmissionHandler.Admit, admitLoop_eq_phaseLoop, phaseLoop_err_eq_ret]

theorem Validate_eq {Obj Err : Type} (chain : chainAdmissionHandler Obj Err)
    (a : Attributes Obj) :
    chain.Validate a =
      ⟨(phaseLoop NamedHandler.Validate chain 0 none a).ret,
        (phaseLoop NamedHandler.Validate chain 0 none a).attrs,
        (phaseLoop NamedHandler.Validate chain 0 none a).trace ++
          [Event.ObserveAdmissionStep
            (phaseLoop NamedHandler.Validate chain 0 none a).ret.isSome
            (phaseLoop NamedHandler.Validate chain 0 none a).attrs stepValidating]⟩ := by
  simp only [chainAdmissionHandler.Validate, validateLoop_eq_phaseLoop, phaseLoop_err_eq_ret]

/-! ## The trace as a list of invocations -/

theorem invokedIdxs_calls {Obj Err : Type} (calls : List (Call Obj Err)) :
    invokedIdxs (calls.flatMap Call.events) = calls.map Call.idx := by
  induction calls with
  | nil => rfl
  | cons c rest ih =>
    simp only [invokedIdxs] at ih
    simp [invokedIdxs, Call.events, List.filterMap_cons, Event.invokedIdx, ih]

theorem observedIdxs_calls {Obj Err : Type} (calls : List (Call Obj Err)) :
    observedIdxs (calls.flatMap Call.events) = calls.map Call.idx := by
  induction calls with
  | nil => rfl
  | cons c rest ih =>
    simp only [observedIdxs] at ih
    simp [observedIdxs, Call.events, List.filterMap_cons, Event.observedIdx, ih]

theorem stepObservations_calls {Obj Err : Type} (calls : List (Call Obj Err)) :
    stepObservations (calls.flatMap Call.events) = [] := by
  induction calls with
  | nil => rfl
  | cons c rest ih =>
    simp only [stepObservations] at ih
    simp [stepObservations, Call.events, List.filterMap_cons, Event.step?, ih]

theorem callsOf_skip {Obj Err : Type} (cap : Capability Obj Err)
    (h : NamedHandler Obj Err) (rest : List (NamedHandler Obj Err)) (idx : Nat)
    (a : Attributes Obj) (hn : applicable cap a.operation h = none) :
    callsOf cap (h :: rest) idx a = callsOf cap rest (idx + 1) a := by
  simp [callsOf, hn]

theorem callsOf_fail {Obj Err : Type} (cap : Capability Obj Err)
    (h : NamedHandler Obj Err) (rest : List (NamedHandler Obj Err)) (idx : Nat)
    (a : Attributes Obj) (m : Method Obj Err) (e : Err)
    (hm : applicable cap a.operation h = some m) (he : m.error a = some e) :
    callsOf cap (h :: rest) idx a = [⟨idx, h.name, a, some e, m.after a⟩] := by
  simp [callsOf, hm, he]

theorem callsOf_ok {Obj Err : Type} (cap : Capability Obj Err)
    (h : NamedHandler Obj Err) (rest : List (NamedHandler Obj Err)) (idx : Nat)
    (a : Attributes Obj) (m : Method Obj Err)
    (hm : applicable cap a.operation h = some m) (he : m.error a = none) :
    callsOf cap (h :: rest) idx a =
      ⟨idx, h.name, a, none, m.after a⟩ :: callsOf cap rest (idx + 1) (m.after a) := by
  simp [callsOf, hm, he]

/-- The events of the loop are the invocations of `callsOf`, each followed by its
per-handler observation. -/
theorem phaseLoop_trace {Obj Err : Type} (cap : Capability Obj Err)
    (hs : List (NamedHandler Obj Err)) :
    ∀ (idx : Nat) (a : Attributes Obj),
      (phaseLoop cap hs idx none a).trace = (callsOf cap hs idx a).flatMap Call.events := by
  induction hs with
  | nil => intro idx a; rfl
  | cons h rest ih =>
    intro idx a
    cases hm : applicable cap a.operation h with
    | none => rw [phaseLoop_skip cap h rest idx none a hm, callsOf_skip cap h rest idx a hm, ih]
    | some m =>
      cases he : m.error a with
      | some e =>
        rw [phaseLoop_fail cap h rest idx none a m e hm he, callsOf_fail cap h rest idx a m e hm he]
        simp [Call.events]
      | none =>
        rw [phaseLoop_ok cap h rest idx none a m hm he, callsOf_ok cap h rest idx a m hm he]
        simp [Call.events, ih]

/-- Every invocation of `callsOf` is the phase method of an applicable handler, run on
the Attributes left by the handlers before it. -/
theorem callsOf_spec {Obj Err : Type} (cap : Capability Obj Err)
    (hs : List (NamedHandler Obj Err)) :
    ∀ (idx : Nat) (a : Attributes Obj) (c : Call Obj Err), c ∈ callsOf cap hs idx a →
      ∃ (j : Nat) (h : NamedHandler Obj Err) (m : Method Obj Err),
        c.idx = idx + j ∧ hs[j]? = some h ∧ applicable cap a.operation h = some m ∧
        c.name = h.name ∧ c.input = threaded cap (hs.take j) a ∧
        c.ret = m.error c.input ∧ c.output = m.after c.input := by
  induction hs with
  | nil => intro idx a c hc; simp [callsOf] at hc
  | cons h rest ih =>
    intro idx a c hc
    cases hm : applicable cap a.operation h with
    | none =>
      rw [callsOf_skip cap h rest idx a hm] at hc
      obtain ⟨j, h1, m1, hidx, hget, happ, hname, hin, hret, hout⟩ := ih (idx + 1) a c hc
      refine ⟨j + 1, h1, m1, by omega, by simpa using hget, happ, hname, ?_, hret, hout⟩
      rw [List.take_succ_cons, threaded_skip cap h _ a hm]; exact hin
    | some m =>
      have hfirst : (⟨idx, h.name, a, m.error a, m.after a⟩ : Call Obj Err) = c →
          ∃ (j : Nat) (h' : NamedHandler Obj Err) (m' : Method Obj Err),
            c.idx = idx + j ∧ (h :: rest)[j]? = some h' ∧
            applicable cap a.operation h' = some m' ∧
            c.name = h'.name ∧ c.input = threaded cap ((h :: rest).take j) a ∧
            c.ret = m'.error c.input ∧ c.output = m'.after c.input := by
        intro hc0
        subst hc0
        exact ⟨0, h, m, rfl, by simp, hm, rfl, rfl, rfl, rfl⟩
      cases he : m.error a with
      | some e =>
        rw [callsOf_fail cap h rest idx a m e hm he] at hc
        simp only [List.mem_singleton] at hc
        exact hfirst (by rw [hc, he])
      | none =>
        rw [callsOf_ok cap h rest idx a m hm he] at hc
        rcases List.mem_cons.1 hc with hc | hc
        · exact hfirst (by rw [hc, he])
        · obtain ⟨j, h1, m1, hidx, hget, happ, hname, hin, hret, hout⟩ :=
            ih (idx + 1) (m.after a) c hc
          rw [after_operation] at happ
          refine ⟨j + 1, h1, m1, by omega, by simpa using hget, happ, hname, ?_, hret, hout⟩
          rw [List.take_succ_cons, threaded_apply cap h _ a m hm]; exact hin

/-- The invocations are performed at strictly increasing positions. -/
theorem callsOf_idx_increasing {Obj Err : Type} (cap : Capability Obj Err)
    (hs : List (NamedHandler Obj Err)) :
    ∀ (idx : Nat) (a : Attributes Obj),
      ((callsOf cap hs idx a).map Call.idx).Pairwise (fun i j => i < j) := by
  induction hs with
  | nil => intro idx a; simp [callsOf]
  | cons h rest ih =>
    intro idx a
    cases hm : applicable cap a.operation h with
    | none => rw [callsOf_skip cap h rest idx a hm]; exact ih _ _
    | some m =>
      cases he : m.error a with
      | some e => rw [callsOf_fail cap h rest idx a m e hm he]; simp
      | none =>
        rw [callsOf_ok cap h rest idx a m hm he, List.map_cons, List.pairwise_cons]
        refine ⟨?_, ih _ _⟩
        intro k hk
        obtain ⟨c, hc, rfl⟩ := List.mem_map.1 hk
        obtain ⟨j, _, _, hidx, _⟩ := callsOf_spec cap rest (idx + 1) (m.after a) c hc
        show idx < c.idx
        omega

/-- The first invocation receives the Attributes the loop started with. -/
theorem callsOf_head {Obj Err : Type} (cap : Capability Obj Err)
    (hs : List (NamedHandler Obj Err)) :
    ∀ (idx : Nat) (a : Attributes Obj) (c : Call Obj Err),
      (callsOf cap hs idx a).head? = some c → c.input = a := by
  induction hs with
  | nil => intro idx a c hc; simp [callsOf] at hc
  | cons h rest ih =>
    intro idx a c hc
    cases hm : applicable cap a.operation h with
    | none => rw [callsOf_skip cap h rest idx a hm] at hc; exact ih _ _ _ hc
    | some m =>
      cases he : m.error a with
      | some e =>
        rw [callsOf_fail cap h rest idx a m e hm he] at hc
        simp at hc
        rw [← hc]
      | none =>
        rw [callsOf_ok cap h rest idx a m hm he] at hc
        simp at hc
        rw [← hc]

/-- Each invocation receives the Attributes the previous invocation left. -/
theorem callsOf_threaded {Obj Err : Type} (cap : Capability Obj Err)
    (hs : List (NamedHandler Obj Err)) :
    ∀ (idx : Nat) (a : Attributes Obj),
      List.Chain' (fun c d : Call Obj Err => d.input = c.output) (callsOf cap hs idx a) := by
  induction hs with
  | nil => intro idx a; simp [callsOf]
  | cons h rest ih =>
    intro idx a
    cases hm : applicable cap a.operation h with
    | none => rw [callsOf_skip cap h rest idx a hm]; exact ih _ _
    | some m =>
      cases he : m.error a with
      | some e => rw [callsOf_fail cap h rest idx a m e hm he]; simp
      | none =>
        rw [callsOf_ok cap h rest idx a m hm he, List.chain'_cons']
        refine ⟨?_, ih _ _⟩
        intro d hd
        exact callsOf_head cap rest (idx + 1) (m.after a) d (Option.mem_def.1 hd)

/-- The loop returns what the last invocation returned, and leaves the Attributes as
the last invocation left them. -/
theorem phaseLoop_last_call {Obj Err : Type} (cap : Capability Obj Err)
    (hs : List (NamedHandler Obj Err)) :
    ∀ (idx : Nat) (a : Attributes Obj),
      (phaseLoop cap hs idx none a).ret = (callsOf cap hs idx a).getLast?.bind Call.ret ∧
      (phaseLoop cap hs idx none a).attrs =
        ((callsOf cap hs idx a).getLast?.map Call.output).getD a := by
  induction hs with
  | nil => intro idx a; simp [phaseLoop, callsOf]
  | cons h rest ih =>
    intro idx a
    cases hm : applicable cap a.operation h with
    | none =>
      rw [phaseLoop_skip cap h rest idx none a hm, callsOf_skip cap h rest idx a hm]
      exact ih _ _
    | some m =>
      cases he : m.error a with
      | some e =>
        rw [phaseLoop_fail cap h rest idx none a m e hm he, callsOf_fail cap h rest idx a m e hm he]
        simp
      | none =>
        rw [phaseLoop_ok cap h rest idx none a m hm he, callsOf_ok cap h rest idx a m hm he]
        have ih1 := ih (idx + 1) (m.after a)
        cases hcalls : callsOf cap rest (idx + 1) (m.after a) with
        | nil =>
          rw [hcalls] at ih1
          simpa using ih1
        | cons d ds =>
          rw [hcalls] at ih1
          rw [List.getLast?_cons_cons]
          exact ih1

/-- Every invocation but the last returned nil. -/
theorem callsOf_dropLast_ok {Obj Err : Type} (cap : Capability Obj Err)
    (hs : List (NamedHandler Obj Err)) :
    ∀ (idx : Nat) (a : Attributes Obj) (c : Call Obj Err),
      c ∈ (callsOf cap hs idx a).dropLast → c.ret = none := by
  induction hs with
  | nil => intro idx a c hc; simp [callsOf] at hc
  | cons h rest ih =>
    intro idx a c hc
    cases hm : applicable cap a.operation h with
    | none => rw [callsOf_skip cap h rest idx a hm] at hc; exact ih _ _ _ hc
    | some m =>
      cases he : m.error a with
      | some e =>
        rw [callsOf_fail cap h rest idx a m e hm he] at hc
        simp at hc
      | none =>
        rw [callsOf_ok cap h rest idx a m hm he] at hc
        cases hcalls : callsOf cap rest (idx + 1) (m.after a) with
        | nil =>
          rw [hcalls] at hc
          simp at hc
        | cons d ds =>
          rw [hcalls, List.dropLast_cons₂] at hc
          rcases List.mem_cons.1 hc with hc | hc
          · rw [hc]
          · rw [← hcalls] at hc
            exact ih _ _ _ hc

/-- The loop leaves the operation and the resource of the Attributes as they were. -/
theorem phaseLoop_attrs_fixed {Obj Err : Type} (cap : Capability Obj Err)
    (hs : List (NamedHandler Obj Err)) :
    ∀ (idx : Nat) (a : Attributes Obj),
      (phaseLoop cap hs idx none a).attrs.operation = a.operation ∧
      (phaseLoop cap hs idx none a).attrs.resource = a.resource := by
  induction hs with
  | nil => intro idx a; exact ⟨rfl, rfl⟩
  | cons h rest ih =>
    intro idx a
    cases hm : applicable cap a.operation h with
    | none => rw [phaseLoop_skip cap h rest idx none a hm]; exact ih _ _
    | some m =>
      cases he : m.error a with
      | some e =>
        rw [phaseLoop_fail cap h rest idx none a m e hm he]
        exact ⟨rfl, rfl⟩
      | none =>
        rw [phaseLoop_ok cap h rest idx none a m hm he]
        exact ih (idx + 1) (m.after a)

/-- When the handler at position `i` is the first whose phase method fails, the loop
performs the invocations of the handlers before it, then the failing one, and stops. -/
theorem phaseLoop_first_fail {Obj Err : Type} (cap : Capability Obj Err)
    (hs : List (NamedHandler Obj Err)) :
    ∀ (idx : Nat) (a : Attributes Obj) (i : Nat) (h : NamedHandler Obj Err)
      (m : Method Obj Err) (e : Err),
      hs[i]? = some h → applicable cap a.operation h = some m →
      m.error (threaded cap (hs.take i) a) = some e →
      (∀ (j : Nat) (h' : NamedHandler Obj Err) (m' : Method Obj Err), j < i →
        hs[j]? = some h' → applicable cap a.operation h' = some m' →
        m'.error (threaded cap (hs.take j) a) = none) →
      (phaseLoop cap hs idx none a).ret = some e ∧
      (phaseLoop cap hs idx none a).attrs = m.after (threaded cap (hs.take i) a) ∧
      callsOf cap hs idx a =
        callsOf cap (hs.take i) idx a ++
          [⟨idx + i, h.name, threaded cap (hs.take i) a, some e,
            m.after (threaded cap (hs.take i) a)⟩] := by
  induction hs with
  | nil => intro idx a i h m e hget; simp at hget
  | cons h0 rest ih =>
    intro idx a i h m e hget happ herr hfirst
    cases i with
    | zero =>
      simp at hget
      subst hget
      simp only [List.take_zero, threaded] at herr ⊢
      rw [phaseLoop_fail cap h0 rest idx none a m e happ herr,
        callsOf_fail cap h0 rest idx a m e happ herr]
      simp [callsOf]
    | succ i =>
      have hget1 : rest[i]? = some h := by simpa using hget
      have hidx : idx + 1 + i = idx + (i + 1) := by omega
      cases hm : applicable cap a.operation h0 with
      | none =>
        rw [List.take_succ_cons, threaded_skip cap h0 _ a hm] at herr ⊢
        have hrec := ih (idx + 1) a i h m e hget1 happ herr (by
          intro j h' m' hj hgetj happj
          have := hfirst (j + 1) h' m' (by omega) (by simpa using hgetj) happj
          rwa [List.take_succ_cons, threaded_skip cap h0 _ a hm] at this)
        rw [phaseLoop_skip cap h0 rest idx none a hm, callsOf_skip cap h0 rest idx a hm,
          callsOf_skip cap h0 _ idx a hm, ← hidx]
        exact hrec
      | some m0 =>
        have he0 : m0.error a = none := by
          have := hfirst 0 h0 m0 (by omega) (by simp) hm
          simpa [threaded] using this
        rw [List.take_succ_cons, threaded_apply cap h0 _ a m0 hm] at herr ⊢
        have hrec := ih (idx + 1) (m0.after a) i h m e hget1
          (by rw [after_operation]; exact happ) herr (by
          intro j h' m' hj hgetj happj
          rw [after_operation] at happj
          have := hfirst (j + 1) h' m' (by omega) (by simpa using hgetj) happj
          rwa [List.take_succ_cons, threaded_apply cap h0 _ a m0 hm] at this)
        rw [phaseLoop_ok cap h0 rest idx none a m0 hm he0, callsOf_ok cap h0 rest idx a m0 hm he0,
          callsOf_ok cap h0 _ idx a m0 hm he0, ← hidx]
        exact ⟨hrec.1, hrec.2.1, by rw [hrec.2.2]; rfl⟩

theorem Admit_eq_runPhase {Obj Err : Type} (chain : chainAdmissionHandler Obj Err)
    (a : Attributes Obj) :
    chain.Admit a = runPhase NamedHandler.Admit stepMutating chain a := by
  simp only [chainAdmissionHandler.Admit, runPhase, admitLoop_eq_phaseLoop]

theorem Validate_eq_runPhase {Obj Err : Type} (chain : chainAdmissionHandler Obj Err)
    (a : Attributes Obj) :
    chain.Validate a = runPhase NamedHandler.Validate stepValidating chain a := by
  simp only [chainAdmissionHandler.Validate, runPhase, validateLoop_eq_phaseLoop]

theorem runPhase_ret {Obj Err : Type} (cap : Capability Obj Err) (step : String)
    (chain : List (NamedHandler Obj Err)) (a : Attributes Obj) :
    (runPhase cap step chain a).ret = (phaseLoop cap chain 0 none a).ret := rfl

theorem runPhase_attrs {Obj Err : Type} (cap : Capability Obj Err) (step : String)
    (chain : List (NamedHandler Obj Err)) (a : Attributes Obj) :
    (runPhase cap step chain a).attrs = (phaseLoop cap chain 0 none a).attrs := rfl

/-- The trace of a call: the invocations, each with its per-handler observation, then
the phase observation, whose flag says whether an error is returned. -/
theorem runPhase_trace {Obj Err : Type} (cap : Capability Obj Err) (step : String)
    (chain : List (NamedHandler Obj Err)) (a : Attributes Obj) :
    (runPhase cap step chain a).trace =
      (callsOf cap chain 0 a).flatMap Call.events ++
        [Event.ObserveAdmissionStep (runPhase cap step chain a).ret.isSome
          (runPhase cap step chain a).attrs step] := by
  simp only [runPhase, phaseLoop_err_eq_ret, phaseLoop_trace]

theorem invokedIdxs_trace {Obj Err : Type} (calls : List (Call Obj Err)) (failed : Bool)
    (s : Attributes Obj) (step : String) :
    invokedIdxs (calls.flatMap Call.events ++ [Event.ObserveAdmissionStep failed s step]) =
      calls.map Call.idx := by
  have h := invokedIdxs_calls calls
  simp only [invokedIdxs] at h
  simp [invokedIdxs, List.filterMap_append, h, Event.invokedIdx]

theorem observedIdxs_trace {Obj Err : Type} (calls : List (Call Obj Err)) (failed : Bool)
    (s : Attributes Obj) (step : String) :
    observedIdxs (calls.flatMap Call.events ++ [Event.ObserveAdmissionStep failed s step]) =
      calls.map Call.idx := by
  have h := observedIdxs_calls calls
  simp only [observedIdxs] at h
  simp [observedIdxs, List.filterMap_append, h, Event.observedIdx]

theorem stepObservations_trace {Obj Err : Type} (calls : List (Call Obj Err))
    (failed : Bool) (s : Attributes Obj) (step : String) :
    stepObservations (calls.flatMap Call.events ++ [Event.ObserveAdmissionStep failed s step]) =
      [(failed, s, step)] := by
  have h := stepObservations_calls calls
  simp only [stepObservations] at h
  simp [stepObservations, List.filterMap_append, h, Event.step?]

/-- Short-circuit, for either phase. -/
theorem runPhase_short_circuit {Obj Err : Type} (cap : Capability Obj Err) (step : String)
    (chain : List (NamedHandler Obj Err)) (a : Attributes Obj) (i : Nat)
    (h : NamedHandler Obj Err) (m : Method Obj Err) (e : Err)
    (hget : chain[i]? = some h) (happ : applicable cap a.operation h = some m)
    (herr : m.error (threaded cap (chain.take i) a) = some e)
    (hfirst : ∀ (j : Nat) (h' : NamedHandler Obj Err) (m' : Method Obj Err), j < i →
      chain[j]? = some h' → applicable cap a.operation h' = some m' →
      m'.error (threaded cap (chain.take j) a) = none) :
    (runPhase cap step chain a).ret = some e ∧
    (∀ k, k ∈ invokedIdxs (runPhase cap step chain a).trace → k ≤ i) ∧
    (∀ k, k ∈ observedIdxs (runPhase cap step chain a).trace → k ≤ i) ∧
    Event.ObserveAdmissionController true i h.name
        (m.after (threaded cap (chain.take i) a)) ∈ (runPhase cap step chain a).trace ∧
    stepObservations (runPhase cap step chain a).trace =
      [(true, (runPhase cap step chain a).attrs, step)] := by
  obtain ⟨hret, _, hcalls⟩ := phaseLoop_first_fail cap chain 0 a i h m e hget happ herr hfirst
  have hret1 : (runPhase cap step chain a).ret = some e := hret
  have hbound : ∀ k, k ∈ (callsOf cap chain 0 a).map Call.idx → k ≤ i := by
    intro k hk
    rw [hcalls, List.map_append, List.mem_append] at hk
    rcases hk with hk | hk
    · obtain ⟨c, hc, rfl⟩ := List.mem_map.1 hk
      obtain ⟨j, h1, _, hidx, hgetj, _⟩ := callsOf_spec cap (chain.take i) 0 a c hc
      have hlt : j < (chain.take i).length := by
        by_contra hge
        rw [List.getElem?_eq_none (by omega)] at hgetj
        cases hgetj
      have : (chain.take i).length ≤ i := by simp
      omega
    · simp at hk
      omega
  rw [runPhase_trace, invokedIdxs_trace, observedIdxs_trace, stepObservations_trace, hret1]
  refine ⟨rfl, hbound, hbound, ?_, rfl⟩
  rw [hcalls]
  simp [Call.events]

theorem invocations_trace {Obj Err : Type} (calls : List (Call Obj Err)) (failed : Bool)
    (s : Attributes Obj) (step : String) :
    invocations (calls.flatMap Call.events ++ [Event.ObserveAdmissionStep failed s step]) =
      calls.map (fun c => (c.idx, c.name, c.ret.isSome)) := by
  induction calls with
  | nil => rfl
  | cons c rest ih =>
    simp only [invocations] at ih
    simp [invocations, Call.events, List.filterMap_cons, Event.invocation?, ih]

theorem controllerObservations_trace {Obj Err : Type} (calls : List (Call Obj Err))
    (failed : Bool) (s : Attributes Obj) (step : String) :
    controllerObservations
        (calls.flatMap Call.events ++ [Event.ObserveAdmissionStep failed s step]) =
      calls.map (fun c => (c.idx, c.name, c.ret.isSome)) := by
  induction calls with
  | nil => rfl
  | cons c rest ih =>
    simp only [controllerObservations] at ih
    simp [controllerObservations, Call.events, List.filterMap_cons, Event.observation?, ih]

/-- Every invocation is performed by an applicable handler of the chain, on the
Attributes left by the handlers before it. -/
theorem callsOf_performedBy {Obj Err : Type} (cap : Capability Obj Err)
    (chain : List (NamedHandler Obj Err)) (a : Attributes Obj) (c : Call Obj Err)
    (hc : c ∈ callsOf cap chain 0 a) :
    c.performedBy cap chain ∧ c.input = threaded cap (chain.take c.idx) a ∧
      c.input.operation = a.operation := by
  obtain ⟨j, h, m, hidx, hget, happ, hname, hin, hret, hout⟩ := callsOf_spec cap chain 0 a c hc
  have hj : c.idx = j := by omega
  have hop : c.input.operation = a.operation := by rw [hin, threaded_operation]
  rw [applicable_eq_some_iff] at happ
  refine ⟨⟨h, m, by rw [hj]; exact hget, by rw [hop]; exact happ.1, happ.2, hname, hret, hout⟩,
    by rw [hj]; exact hin, hop⟩

/-- Phase observation, for either phase. -/
theorem runPhase_step_observation {Obj Err : Type} (cap : Capability Obj Err)
    (step : String) (chain : List (NamedHandler Obj Err)) (a : Attributes Obj) :
    stepObservations (runPhase cap step chain a).trace =
        [((runPhase cap step chain a).ret.isSome, (runPhase cap step chain a).attrs, step)] ∧
      (runPhase cap step chain a).attrs.operation = a.operation ∧
      (runPhase cap step chain a).attrs.resource = a.resource := by
  refine ⟨?_, phaseLoop_attrs_fixed cap chain 0 a⟩
  rw [runPhase_trace, stepObservations_trace]

/-- Per-handler observations, for either phase. -/
theorem runPhase_observations {Obj Err : Type} (cap : Capability Obj Err)
    (step : String) (chain : List (NamedHandler Obj Err)) (a : Attributes Obj) :
    controllerObservations (runPhase cap step chain a).trace =
        invocations (runPhase cap step chain a).trace ∧
      ∃ calls : List (Call Obj Err),
        (runPhase cap step chain a).trace =
          calls.flatMap Call.events ++
            [Event.ObserveAdmissionStep (runPhase cap step chain a).ret.isSome
              (runPhase cap step chain a).attrs step] ∧
        (∀ c, c ∈ calls → c.performedBy cap chain) ∧
        (runPhase cap step chain a).ret = calls.getLast?.bind Call.ret := by
  refine ⟨?_, callsOf cap chain 0 a, runPhase_trace cap step chain a, ?_, ?_⟩
  · rw [runPhase_trace, controllerObservations_trace, invocations_trace]
  · intro c hc
    exact (callsOf_performedBy cap chain a c hc).1
  · exact (phaseLoop_last_call cap chain 0 a).1

/-- The positions invoked and observed are positions of applicable handlers. -/
theorem runPhase_idx_applicable {Obj Err : Type} (cap : Capability Obj Err)
    (step : String) (chain : List (NamedHandler Obj Err)) (a : Attributes Obj) (k : Nat)
    (hk : k ∈ invokedIdxs (runPhase cap step chain a).trace ∨
      k ∈ observedIdxs (runPhase cap step chain a).trace) :
    ∃ (h : NamedHandler Obj Err) (m : Method Obj Err),
      chain[k]? = some h ∧ h.Handles a.operation = true ∧ cap h = some m := by
  rw [runPhase_trace, invokedIdxs_trace, observedIdxs_trace, or_self] at hk
  obtain ⟨c, hc, rfl⟩ := List.mem_map.1 hk
  obtain ⟨⟨h, m, hget, hh, hcap, _⟩, _, hop⟩ := callsOf_performedBy cap chain a c hc
  exact ⟨h, m, hget, by rw [← hop]; exact hh, hcap⟩

/-- Reading a list at strictly increasing positions gives a sublist of it. -/
theorem getElem?_increasing_sublist {α : Type} (l : List α) :
    ∀ (n : Nat) (idxs : List Nat), idxs.Pairwise (fun i j => i < j) →
      (∀ k, k ∈ idxs → n ≤ k) →
      (idxs.filterMap (fun k => l[k - n]?)).Sublist l := by
  induction l with
  | nil =>
    intro n idxs _ _
    have : idxs.filterMap (fun k => ([] : List α)[k - n]?) = [] := by
      induction idxs with
      | nil => rfl
      | cons k ks ihk => simp
    rw [this]
  | cons x xs ih =>
    intro n idxs hpw hge
    have hshift : ∀ (ks : List Nat), (∀ k, k ∈ ks → n + 1 ≤ k) →
        ks.filterMap (fun k => (x :: xs)[k - n]?) =
          ks.filterMap (fun k => xs[k - (n + 1)]?) := by
      intro ks hks
      induction ks with
      | nil => rfl
      | cons k ks ihk =>
        have hk : n + 1 ≤ k := hks k (List.mem_cons_self _ _)
        have hkn : k - n = (k - (n + 1)) + 1 := by omega
        have hrest := ihk (fun k' hk' => hks k' (List.mem_cons_of_mem _ hk'))
        simp only [List.filterMap_cons, hkn, List.getElem?_cons_succ, hrest]
    cases idxs with
    | nil => simp
    | cons k ks =>
      rw [List.pairwise_cons] at hpw
      have hkge : n ≤ k := hge k (List.mem_cons_self _ _)
      by_cases hk : k = n
      · subst hk
        have hks : ∀ k', k' ∈ ks → k + 1 ≤ k' := fun k' hk' => hpw.1 k' hk'
        have hhead : (k :: ks).filterMap (fun j => (x :: xs)[j - k]?) =
            x :: ks.filterMap (fun j => (x :: xs)[j - k]?) := by
          simp [List.filterMap_cons]
        rw [hhead, hshift ks hks]
        exact List.Sublist.cons₂ x (ih (k + 1) ks hpw.2 hks)
      · have hall : ∀ k', k' ∈ k :: ks → n + 1 ≤ k' := by
          intro k' hk'
          rcases List.mem_cons.1 hk' with rfl | hk'
          · omega
          · have := hpw.1 k' hk'
            omega
        rw [hshift (k :: ks) hall]
        exact List.Sublist.cons x (ih (n + 1) (k :: ks) (List.pairwise_cons.2 hpw) hall)

/-- Order of the invocations, for either phase. -/
theorem runPhase_order {Obj Err : Type} (cap : Capability Obj Err)
    (step : String) (chain : List (NamedHandler Obj Err)) (a : Attributes Obj) :
    (invokedIdxs (runPhase cap step chain a).trace).Pairwise (fun i j => i < j) ∧
    (∀ k, k ∈ invokedIdxs (runPhase cap step chain a).trace → k < chain.length) ∧
    (handlersAt chain (invokedIdxs (runPhase cap step chain a).trace)).Sublist chain := by
  have hpw : (invokedIdxs (runPhase cap step chain a).trace).Pairwise (fun i j => i < j) := by
    rw [runPhase_trace, invokedIdxs_trace]
    exact callsOf_idx_increasing cap chain 0 a
  refine ⟨hpw, ?_, ?_⟩
  · intro k hk
    obtain ⟨h, _, hget, _⟩ := runPhase_idx_applicable cap step chain a k (Or.inl hk)
    by_contra hge
    rw [List.getElem?_eq_none (by omega)] at hget
    cases hget
  · have := getElem?_increasing_sublist chain 0
      (invokedIdxs (runPhase cap step chain a).trace) hpw (fun k _ => Nat.zero_le k)
    simpa [handlersAt] using this

/-! ## The claims -/

/-- C1: if `Admit` (resp. `Validate`) returns a non-nil error `e`, then `e` is exactly
the value returned by the first handler, in chain order, that accepts the operation,
has the mutation (resp. validation) capability and returns a non-nil error when
invoked on the Attributes left by the handlers before it; that invocation is in the
trace, and every applicable handler before it returned nil.  The error is returned as
it is: not wrapped, not combined with another handler's result. -/
theorem first_error_returned_verbatim {Obj Err : Type}
    (chain : chainAdmissionHandler Obj Err) (a : Attributes Obj) (e : Err) :
    ((chain.Admit a).ret = some e →
      ∃ (i : Nat) (h : NamedHandler Obj Err) (m : Method Obj Err),
        chain[i]? = some h ∧ h.Handles a.operation = true ∧ h.Admit = some m ∧
        m.error (threaded NamedHandler.Admit (chain.take i) a) = some e ∧
        Event.invoke i h.name (threaded NamedHandler.Admit (chain.take i) a) (some e) ∈
          (chain.Admit a).trace ∧
        ∀ (j : Nat) (h' : NamedHandler Obj Err) (m' : Method Obj Err), j < i →
          chain[j]? = some h' → h'.Handles a.operation = true → h'.Admit = some m' →
          m'.error (threaded NamedHandler.Admit (chain.take j) a) = none) ∧
    ((chain.Validate a).ret = some e →
      ∃ (i : Nat) (h : NamedHandler Obj Err) (m : Method Obj Err),
        chain[i]? = some h ∧ h.Handles a.operation = true ∧ h.Validate = some m ∧
        m.error (threaded NamedHandler.Validate (chain.take i) a) = some e ∧
        Event.invoke i h.name (threaded NamedHandler.Validate (chain.take i) a) (some e) ∈
          (chain.Validate a).trace ∧
        ∀ (j : Nat) (h' : NamedHandler Obj Err) (m' : Method Obj Err), j < i →
          chain[j]? = some h' → h'.Handles a.operation = true → h'.Validate = some m' →
          m'.error (threaded NamedHandler.Validate (chain.take j) a) = none) := by
  constructor
  · intro hret
    rw [Admit_eq] at hret ⊢
    obtain ⟨i, h, m, hget, happ, herr, hmem, hfirst⟩ :=
      phaseLoop_ret_some NamedHandler.Admit chain 0 a e hret
    rw [applicable_eq_some_iff] at happ
    refine ⟨i, h, m, hget, happ.1, happ.2, herr, ?_, ?_⟩
    · rw [Nat.zero_add] at hmem
      exact List.mem_append_left _ hmem
    · intro j h' m' hj hgetj hh hc
      exact hfirst j h' m' hj hgetj ((applicable_eq_some_iff _ _ _ _).2 ⟨hh, hc⟩)
  · intro hret
    rw [Validate_eq] at hret ⊢
    obtain ⟨i, h, m, hget, happ, herr, hmem, hfirst⟩ :=
      phaseLoop_ret_some NamedHandler.Validate chain 0 a e hret
    rw [applicable_eq_some_iff] at happ
    refine ⟨i, h, m, hget, happ.1, happ.2, herr, ?_, ?_⟩
    · rw [Nat.zero_add] at hmem
      exact List.mem_append_left _ hmem
    · intro j h' m' hj hgetj hh hc
      exact hfirst j h' m' hj hgetj ((applicable_eq_some_iff _ _ _ _).2 ⟨hh, hc⟩)

/-- Witness for C1 on the chain [good, bad, probe]: both phases return the error of
`bad`, the handler at position 1. -/
theorem first_error_returned_verbatim_witness :
    ((exChain.Admit exAttrs).ret = some "denied" ∧
      ∃ (i : Nat) (h : NamedHandler Nat String) (m : Method Nat String),
        exChain[i]? = some h ∧ h.Handles exAttrs.operation = true ∧ h.Admit = some m ∧
        m.error (threaded NamedHandler.Admit (exChain.take i) exAttrs) = some "denied" ∧
        Event.invoke i h.name (threaded NamedHandler.Admit (exChain.take i) exAttrs)
          (some "denied") ∈ (exChain.Admit exAttrs).trace ∧
        ∀ (j : Nat) (h' : NamedHandler Nat String) (m' : Method Nat String), j < i →
          exChain[j]? = some h' → h'.Handles exAttrs.operation = true →
          h'.Admit = some m' →
          m'.error (threaded NamedHandler.Admit (exChain.take j) exAttrs) = none) ∧
    (exChain.Validate exAttrs).ret = some "invalid" :=
  ⟨⟨by decide, (first_error_returned_verbatim exChain exAttrs "denied").1 (by decide)⟩,
    by decide⟩


/-- C2: `Admit` returns nil if and only if every handler that accepts the operation and
has the mutation capability returns nil when invoked in chain order, each on the
Attributes left by the handlers before it (so also when no handler is applicable);
equivalently, `Admit` returns a non-nil error iff some applicable mutator returns a
non-nil error. -/
theorem admit_nil_iff_all_mutators_succeed {Obj Err : Type}
    (chain : chainAdmissionHandler Obj Err) (a : Attributes Obj) :
    ((chain.Admit a).ret = none ↔
      ∀ (j : Nat) (h : NamedHandler Obj Err) (m : Method Obj Err),
        chain[j]? = some h → h.Handles a.operation = true → h.Admit = some m →
        m.error (threaded NamedHandler.Admit (chain.take j) a) = none) ∧
    ((chain.Admit a).ret ≠ none ↔
      ∃ (j : Nat) (h : NamedHandler Obj Err) (m : Method Obj Err),
        chain[j]? = some h ∧ h.Handles a.operation = true ∧ h.Admit = some m ∧
        m.error (threaded NamedHandler.Admit (chain.take j) a) ≠ none) := by
  have key : (chain.Admit a).ret = none ↔
      ∀ (j : Nat) (h : NamedHandler Obj Err) (m : Method Obj Err),
        chain[j]? = some h → h.Handles a.operation = true → h.Admit = some m →
        m.error (threaded NamedHandler.Admit (chain.take j) a) = none := by
    rw [Admit_eq]
    simp only
    rw [phaseLoop_ret_none_iff]
    constructor
    · intro hall j h m hget hh hc
      exact hall j h m hget ((applicable_eq_some_iff _ _ _ _).2 ⟨hh, hc⟩)
    · intro hall j h m hget happ
      rw [applicable_eq_some_iff] at happ
      exact hall j h m hget happ.1 happ.2
  refine ⟨key, ?_⟩
  rw [Ne, key]
  constructor
  · intro hnot
    by_contra hex
    apply hnot
    intro j h m hget hh hc
    by_contra hne
    exact hex ⟨j, h, m, hget, hh, hc, hne⟩
  · rintro ⟨j, h, m, hget, hh, hc, hne⟩ hall
    exact hne (hall j h m hget hh hc)

/-- Handles of the chain is the disjunction of the handlers' predicates. -/
theorem chain_Handles_iff {Obj Err : Type} (chain : chainAdmissionHandler Obj Err)
    (op : Operation) :
    chainAdmissionHandler.Handles chain op = true ↔
      ∃ h, h ∈ chain ∧ h.Handles op = true := by
  induction chain with
  | nil => simp [chainAdmissionHandler.Handles]
  | cons h rest ih =>
    by_cases hh : h.Handles op = true
    · simp [chainAdmissionHandler.Handles, hh]
    · simp [chainAdmissionHandler.Handles, hh, ih]

/-- C3: `chain.Handles(op)` is true if and only if some handler of the chain has its
own `Handles(op)` true; and the result is the same whatever capabilities the handlers
have: giving every handler an arbitrary mutation and validation capability (present
or absent) does not change it. -/
theorem chain_handles_iff_some_handler_handles {Obj Err : Type}
    (chain : chainAdmissionHandler Obj Err) (op : Operation) :
    (chainAdmissionHandler.Handles chain op = true ↔
      ∃ h, h ∈ chain ∧ h.Handles op = true) ∧
    ∀ (newAdmit newValidate : NamedHandler Obj Err → Option (Method Obj Err)),
      chainAdmissionHandler.Handles
        (chain.map (fun h => { h with Admit := newAdmit h, Validate := newValidate h })) op =
      chainAdmissionHandler.Handles chain op := by
  refine ⟨chain_Handles_iff chain op, ?_⟩
  intro newAdmit newValidate
  induction chain with
  | nil => rfl
  | cons h rest ih =>
    simp only [List.map_cons, chainAdmissionHandler.Handles, ih]


/-- C4: short-circuit.  When the handler at position `i` is the first applicable
handler of the phase whose method returns an error, the call returns that error, no
handler after position `i` is invoked and none of them produces a per-handler
observation, the per-handler observation of the failing handler is emitted with
failed = true, and the one phase observation is emitted with failed = true.  This
holds for `Admit` with the mutation capability and for `Validate` with the
validation capability. -/
theorem short_circuit_on_first_error {Obj Err : Type}
    (chain : chainAdmissionHandler Obj Err) (a : Attributes Obj) :
    (∀ (i : Nat) (h : NamedHandler Obj Err) (m : Method Obj Err) (e : Err),
      chain[i]? = some h → h.Handles a.operation = true → h.Admit = some m →
      m.error (threaded NamedHandler.Admit (chain.take i) a) = some e →
      (∀ (j : Nat) (h' : NamedHandler Obj Err) (m' : Method Obj Err), j < i →
        chain[j]? = some h' → h'.Handles a.operation = true → h'.Admit = some m' →
        m'.error (threaded NamedHandler.Admit (chain.take j) a) = none) →
      (chain.Admit a).ret = some e ∧
      (∀ k, k ∈ invokedIdxs (chain.Admit a).trace → k ≤ i) ∧
      (∀ k, k ∈ observedIdxs (chain.Admit a).trace → k ≤ i) ∧
      Event.ObserveAdmissionController true i h.name
          (m.after (threaded NamedHandler.Admit (chain.take i) a)) ∈
        (chain.Admit a).trace ∧
      stepObservations (chain.Admit a).trace =
        [(true, (chain.Admit a).attrs, stepMutating)]) ∧
    (∀ (i : Nat) (h : NamedHandler Obj Err) (m : Method Obj Err) (e : Err),
      chain[i]? = some h → h.Handles a.operation = true → h.Validate = some m →
      m.error (threaded NamedHandler.Validate (chain.take i) a) = some e →
      (∀ (j : Nat) (h' : NamedHandler Obj Err) (m' : Method Obj Err), j < i →
        chain[j]? = some h' → h'.Handles a.operation = true → h'.Validate = some m' →
        m'.error (threaded NamedHandler.Validate (chain.take j) a) = none) →
      (chain.Validate a).ret = some e ∧
      (∀ k, k ∈ invokedIdxs (chain.Validate a).trace → k ≤ i) ∧
      (∀ k, k ∈ observedIdxs (chain.Validate a).trace → k ≤ i) ∧
      Event.ObserveAdmissionController true i h.name
          (m.after (threaded NamedHandler.Validate (chain.take i) a)) ∈
        (chain.Validate a).trace ∧
      stepObservations (chain.Validate a).trace =
        [(true, (chain.Validate a).attrs, stepValidating)]) := by
  constructor
  · intro i h m e hget hh hc herr hfirst
    rw [Admit_eq_runPhase]
    exact runPhase_short_circuit NamedHandler.Admit stepMutating chain a i h m e hget
      ((applicable_eq_some_iff _ _ _ _).2 ⟨hh, hc⟩) herr (by
        intro j h' m' hj hgetj happj
        rw [applicable_eq_some_iff] at happj
        exact hfirst j h' m' hj hgetj happj.1 happj.2)
  · intro i h m e hget hh hc herr hfirst
    rw [Validate_eq_runPhase]
    exact runPhase_short_circuit NamedHandler.Validate stepValidating chain a i h m e hget
      ((applicable_eq_some_iff _ _ _ _).2 ⟨hh, hc⟩) herr (by
        intro j h' m' hj hgetj happj
        rw [applicable_eq_some_iff] at happj
        exact hfirst j h' m' hj hgetj happj.1 happj.2)

/-- Witness for C4 on the chain [good, bad, probe]: `bad`, at position 1, is the first
failing mutator; `Admit` returns its error, only the positions 0 and 1 are invoked
(`probe`, at position 2, never is), the observation of `bad` has failed = true and
so has the one phase observation. -/
theorem short_circuit_on_first_error_witness :
    invokedIdxs (exChain.Admit exAttrs).trace = [0, 1] ∧
    observedIdxs (exChain.Admit exAttrs).trace = [0, 1] ∧
    ((exChain.Admit exAttrs).ret = some "denied" ∧
      (∀ k, k ∈ invokedIdxs (exChain.Admit exAttrs).trace → k ≤ 1) ∧
      (∀ k, k ∈ observedIdxs (exChain.Admit exAttrs).trace → k ≤ 1) ∧
      Event.ObserveAdmissionController true 1 "bad" ⟨Operation.Create, "pods", 11⟩ ∈
        (exChain.Admit exAttrs).trace ∧
      stepObservations (exChain.Admit exAttrs).trace =
        [(true, (exChain.Admit exAttrs).attrs, stepMutating)]) :=
  ⟨by decide, by decide,
    (short_circuit_on_first_error exChain exAttrs).1 1 bad
      (fun a => (a.object + 10, some "denied")) "denied" rfl rfl rfl rfl (by
        intro j h' m' hj hget _ hc
        have hj0 : j = 0 := by omega
        subst hj0
        have hh : h' = good := by
          simpa [exChain, NewChainHandler] using hget.symm
        subst hh
        have hm : m' = fun a => (a.object + 1, none) := by
          simpa [good] using hc.symm
        subst hm
        rfl)⟩


/-- C5: every call of `Admit` or `Validate`, on any chain, emits exactly one
`ObserveAdmissionStep` observation; its failed flag is true iff the call returns a
non-nil error; its phase label is "mutating" for `Admit` and "validating" for
`Validate`; its attributes argument is the Attributes of the call (in the state the
call leaves them, with the operation and the resource of the Attributes passed in). -/
theorem phase_observation_exactly_once {Obj Err : Type}
    (chain : chainAdmissionHandler Obj Err) (a : Attributes Obj) :
    (stepObservations (chain.Admit a).trace =
        [((chain.Admit a).ret.isSome, (chain.Admit a).attrs, "mutating")] ∧
      (chain.Admit a).attrs.operation = a.operation ∧
      (chain.Admit a).attrs.resource = a.resource) ∧
    (stepObservations (chain.Validate a).trace =
        [((chain.Validate a).ret.isSome, (chain.Validate a).attrs, "validating")] ∧
      (chain.Validate a).attrs.operation = a.operation ∧
      (chain.Validate a).attrs.resource = a.resource) := by
  constructor
  · rw [Admit_eq_runPhase]
    exact runPhase_step_observation NamedHandler.Admit stepMutating chain a
  · rw [Validate_eq_runPhase]
    exact runPhase_step_observation NamedHandler.Validate stepValidating chain a

/-- C6: in every call of `Admit` or `Validate` the per-handler observations are, in
order, the handler invocations performed: the same positions and names, with
failed = true iff the invocation returned a non-nil error.  The trace consists of the
invocations, each immediately followed by its own observation, and then the phase
observation; each invocation is the phase method of the named handler of the chain,
and the error returned by the call is the one returned by the last invocation, whose
observation is thus emitted before the error is returned. -/
theorem per_handler_observation_correspondence {Obj Err : Type}
    (chain : chainAdmissionHandler Obj Err) (a : Attributes Obj) :
    (controllerObservations (chain.Admit a).trace = invocations (chain.Admit a).trace ∧
      ∃ calls : List (Call Obj Err),
        (chain.Admit a).trace =
          calls.flatMap Call.events ++
            [Event.ObserveAdmissionStep (chain.Admit a).ret.isSome (chain.Admit a).attrs
              stepMutating] ∧
        (∀ c, c ∈ calls → c.performedBy NamedHandler.Admit chain) ∧
        (chain.Admit a).ret = calls.getLast?.bind Call.ret) ∧
    (controllerObservations (chain.Validate a).trace =
        invocations (chain.Validate a).trace ∧
      ∃ calls : List (Call Obj Err),
        (chain.Validate a).trace =
          calls.flatMap Call.events ++
            [Event.ObserveAdmissionStep (chain.Validate a).ret.isSome
              (chain.Validate a).attrs stepValidating] ∧
        (∀ c, c ∈ calls → c.performedBy NamedHandler.Validate chain) ∧
        (chain.Validate a).ret = calls.getLast?.bind Call.ret) := by
  constructor
  · rw [Admit_eq_runPhase]
    exact runPhase_observations NamedHandler.Admit stepMutating chain a
  · rw [Validate_eq_runPhase]
    exact runPhase_observations NamedHandler.Validate stepValidating chain a

/-- C7: predicate gating.  A handler of the chain whose operation predicate returns
false for the operation of the call is not invoked and produces no per-handler
observation, in `Admit` and in `Validate`, whatever its capabilities. -/
theorem predicate_gating {Obj Err : Type}
    (chain : chainAdmissionHandler Obj Err) (a : Attributes Obj) (i : Nat)
    (h : NamedHandler Obj Err) (hget : chain[i]? = some h)
    (hrej : h.Handles a.operation = false) :
    (i ∉ invokedIdxs (chain.Admit a).trace ∧ i ∉ observedIdxs (chain.Admit a).trace) ∧
    (i ∉ invokedIdxs (chain.Validate a).trace ∧
      i ∉ observedIdxs (chain.Validate a).trace) := by
  have key : ∀ (cap : Capability Obj Err) (step : String),
      i ∉ invokedIdxs (runPhase cap step chain a).trace ∧
      i ∉ observedIdxs (runPhase cap step chain a).trace := by
    intro cap step
    constructor
    · intro hk
      obtain ⟨h1, _, hget1, hh, _⟩ := runPhase_idx_applicable cap step chain a i (Or.inl hk)
      rw [hget] at hget1
      cases hget1
      rw [hrej] at hh
      cases hh
    · intro hk
      obtain ⟨h1, _, hget1, hh, _⟩ := runPhase_idx_applicable cap step chain a i (Or.inr hk)
      rw [hget] at hget1
      cases hget1
      rw [hrej] at hh
      cases hh
  rw [Admit_eq_runPhase, Validate_eq_runPhase]
  exact ⟨key _ _, key _ _⟩

/-- Witness for C7: `updateOnly`, at position 0 of `mixedChain`, has both capabilities
and rejects Create; on a Create request neither phase invokes or observes it. -/
theorem predicate_gating_witness :
    mixedChain[0]? = some updateOnly ∧ updateOnly.Handles exAttrs.operation = false ∧
    updateOnly.Admit.isSome = true ∧ updateOnly.Validate.isSome = true ∧
    (0 ∉ invokedIdxs (mixedChain.Admit exAttrs).trace ∧
      0 ∉ observedIdxs (mixedChain.Admit exAttrs).trace) ∧
    (0 ∉ invokedIdxs (mixedChain.Validate exAttrs).trace ∧
      0 ∉ observedIdxs (mixedChain.Validate exAttrs).trace) :=
  ⟨rfl, rfl, rfl, rfl, predicate_gating mixedChain exAttrs 0 updateOnly rfl rfl⟩


/-- C8: capability isolation.  `Admit` never invokes, and emits no per-handler
observation for, a handler that lacks the mutation capability; `Validate` never
invokes, and emits no per-handler observation for, a handler that lacks the
validation capability; also when the handler accepts the operation. -/
theorem capability_isolation {Obj Err : Type}
    (chain : chainAdmissionHandler Obj Err) (a : Attributes Obj) (i : Nat)
    (h : NamedHandler Obj Err) (hget : chain[i]? = some h) :
    (h.Admit = none →
      i ∉ invokedIdxs (chain.Admit a).trace ∧ i ∉ observedIdxs (chain.Admit a).trace) ∧
    (h.Validate = none →
      i ∉ invokedIdxs (chain.Validate a).trace ∧
      i ∉ observedIdxs (chain.Validate a).trace) := by
  have key : ∀ (cap : Capability Obj Err) (step : String), cap h = none →
      i ∉ invokedIdxs (runPhase cap step chain a).trace ∧
      i ∉ observedIdxs (runPhase cap step chain a).trace := by
    intro cap step hnone
    constructor
    · intro hk
      obtain ⟨h1, m, hget1, _, hcap⟩ := runPhase_idx_applicable cap step chain a i (Or.inl hk)
      rw [hget] at hget1
      cases hget1
      rw [hnone] at hcap
      cases hcap
    · intro hk
      obtain ⟨h1, m, hget1, _, hcap⟩ := runPhase_idx_applicable cap step chain a i (Or.inr hk)
      rw [hget] at hget1
      cases hget1
      rw [hnone] at hcap
      cases hcap
  rw [Admit_eq_runPhase, Validate_eq_runPhase]
  exact ⟨key NamedHandler.Admit stepMutating, key NamedHandler.Validate stepValidating⟩

/-- Witness for C8 on `mixedChain` and a Create request: `validatorOnly` (position 1)
accepts Create and is neither invoked nor observed by `Admit`; `mutatorOnly`
(position 2) accepts Create and is neither invoked nor observed by `Validate`. -/
theorem capability_isolation_witness :
    (mixedChain[1]? = some validatorOnly ∧ validatorOnly.Handles exAttrs.operation = true ∧
      validatorOnly.Admit = none ∧
      1 ∉ invokedIdxs (mixedChain.Admit exAttrs).trace ∧
      1 ∉ observedIdxs (mixedChain.Admit exAttrs).trace) ∧
    (mixedChain[2]? = some mutatorOnly ∧ mutatorOnly.Handles exAttrs.operation = true ∧
      mutatorOnly.Validate = none ∧
      2 ∉ invokedIdxs (mixedChain.Validate exAttrs).trace ∧
      2 ∉ observedIdxs (mixedChain.Validate exAttrs).trace) :=
  ⟨⟨rfl, rfl, rfl, (capability_isolation mixedChain exAttrs 1 validatorOnly rfl).1 rfl⟩,
    ⟨rfl, rfl, rfl, (capability_isolation mixedChain exAttrs 2 mutatorOnly rfl).2 rfl⟩⟩

/-- C9: order fidelity.  In every call of `Admit` or `Validate` the positions of the
handlers invoked, in the order of invocation, are strictly increasing positions of the
chain, so the handlers invoked form a subsequence of the chain: no handler is invoked
before a handler that precedes it in the chain. -/
theorem order_fidelity {Obj Err : Type}
    (chain : chainAdmissionHandler Obj Err) (a : Attributes Obj) :
    ((invokedIdxs (chain.Admit a).trace).Pairwise (fun i j => i < j) ∧
      (∀ k, k ∈ invokedIdxs (chain.Admit a).trace → k < chain.length) ∧
      (handlersAt chain (invokedIdxs (chain.Admit a).trace)).Sublist chain) ∧
    ((invokedIdxs (chain.Validate a).trace).Pairwise (fun i j => i < j) ∧
      (∀ k, k ∈ invokedIdxs (chain.Validate a).trace → k < chain.length) ∧
      (handlersAt chain (invokedIdxs (chain.Validate a).trace)).Sublist chain) := by
  constructor
  · rw [Admit_eq_runPhase]
    exact runPhase_order NamedHandler.Admit stepMutating chain a
  · rw [Validate_eq_runPhase]
    exact runPhase_order NamedHandler.Validate stepValidating chain a

/-- C10: cumulative mutation.  The trace of `Admit` is a sequence of invocations (each
followed by its observation) in which the first invoked mutator receives the
Attributes as supplied by the caller, every later one receives the Attributes exactly
as the previous invocation left them, each invocation leaves what the mutator makes of
its input, and so each mutator receives the Attributes as left by all the mutators
invoked before it, in chain order. -/
theorem cumulative_mutation {Obj Err : Type}
    (chain : chainAdmissionHandler Obj Err) (a : Attributes Obj) :
    ∃ calls : List (Call Obj Err),
      (chain.Admit a).trace =
        calls.flatMap Call.events ++
          [Event.ObserveAdmissionStep (chain.Admit a).ret.isSome (chain.Admit a).attrs
            stepMutating] ∧
      (∀ c, calls.head? = some c → c.input = a) ∧
      List.Chain' (fun c d : Call Obj Err => d.input = c.output) calls ∧
      (∀ c, c ∈ calls → c.performedBy NamedHandler.Admit chain ∧
        c.input = threaded NamedHandler.Admit (chain.take c.idx) a) := by
  refine ⟨callsOf NamedHandler.Admit chain 0 a, ?_, ?_, ?_, ?_⟩
  · rw [Admit_eq_runPhase]
    exact runPhase_trace NamedHandler.Admit stepMutating chain a
  · exact callsOf_head NamedHandler.Admit chain 0 a
  · exact callsOf_threaded NamedHandler.Admit chain 0 a
  · intro c hc
    have := callsOf_performedBy NamedHandler.Admit chain a c hc
    exact ⟨this.1, this.2.1⟩


/-- C11: no rollback on error.  When `Admit` returns a non-nil error, the Attributes
left to the caller are those produced by the successful mutators invoked before the
failure, followed by the failing mutator's own invocation: the executor applies no
compensating action and does not put the original proposed object back. -/
theorem no_rollback_on_error {Obj Err : Type}
    (chain : chainAdmissionHandler Obj Err) (a : Attributes Obj) (e : Err)
    (hret : (chain.Admit a).ret = some e) :
    ∃ (i : Nat) (h : NamedHandler Obj Err) (m : Method Obj Err),
      chain[i]? = some h ∧ h.Handles a.operation = true ∧ h.Admit = some m ∧
      m.error (threaded NamedHandler.Admit (chain.take i) a) = some e ∧
      (∀ (j : Nat) (h' : NamedHandler Obj Err) (m' : Method Obj Err), j < i →
        chain[j]? = some h' → h'.Handles a.operation = true → h'.Admit = some m' →
        m'.error (threaded NamedHandler.Admit (chain.take j) a) = none) ∧
      (chain.Admit a).attrs = m.after (threaded NamedHandler.Admit (chain.take i) a) := by
  rw [Admit_eq_runPhase, runPhase_ret] at hret
  obtain ⟨i, h, m, hget, happ, herr, _, hfirst⟩ :=
    phaseLoop_ret_some NamedHandler.Admit chain 0 a e hret
  obtain ⟨_, hattrs, _⟩ :=
    phaseLoop_first_fail NamedHandler.Admit chain 0 a i h m e hget happ herr hfirst
  rw [Admit_eq_runPhase, runPhase_attrs]
  rw [applicable_eq_some_iff] at happ
  refine ⟨i, h, m, hget, happ.1, happ.2, herr, ?_, hattrs⟩
  intro j h' m' hj hgetj hh hc
  exact hfirst j h' m' hj hgetj ((applicable_eq_some_iff _ _ _ _).2 ⟨hh, hc⟩)

/-- Witness for C11 on [good, bad, probe] with proposed object 0: `Admit` fails with
the error of `bad` and leaves the object 11, the work of `good` (+1) and of the
failing `bad` (+10), not the original 0. -/
theorem no_rollback_on_error_witness :
    (exChain.Admit exAttrs).ret = some "denied" ∧
    (exChain.Admit exAttrs).attrs.object = 11 ∧ exAttrs.object = 0 ∧
    ∃ (i : Nat) (h : NamedHandler Nat String) (m : Method Nat String),
      exChain[i]? = some h ∧ h.Handles exAttrs.operation = true ∧ h.Admit = some m ∧
      m.error (threaded NamedHandler.Admit (exChain.take i) exAttrs) = some "denied" ∧
      (∀ (j : Nat) (h' : NamedHandler Nat String) (m' : Method Nat String), j < i →
        exChain[j]? = some h' → h'.Handles exAttrs.operation = true →
        h'.Admit = some m' →
        m'.error (threaded NamedHandler.Admit (exChain.take j) exAttrs) = none) ∧
      (exChain.Admit exAttrs).attrs =
        m.after (threaded NamedHandler.Admit (exChain.take i) exAttrs) :=
  ⟨by decide, by decide, rfl, no_rollback_on_error exChain exAttrs "denied" (by decide)⟩

theorem admitLoop_validatorsAsMutators {Obj Err : Type}
    (hs : List (NamedHandler Obj Err)) :
    ∀ (idx : Nat) (err : Option Err) (a : Attributes Obj),
      admitLoop (validatorsAsMutators hs) idx err a = validateLoop hs idx err a := by
  induction hs with
  | nil => intro idx err a; rfl
  | cons h rest ih =>
    intro idx err a
    have ih1 : ∀ (idx : Nat) (err : Option Err) (a : Attributes Obj),
        admitLoop (List.map NamedHandler.validatorAsMutator rest) idx err a =
          validateLoop rest idx err a := ih
    simp only [validatorsAsMutators, List.map_cons, admitLoop, validateLoop,
      NamedHandler.validatorAsMutator, ih1]

theorem relabel_calls {Obj Err : Type} (step : String) (calls : List (Call Obj Err)) :
    (calls.flatMap Call.events).map (Event.relabel step) = calls.flatMap Call.events := by
  induction calls with
  | nil => rfl
  | cons c rest ih =>
    simp only [List.flatMap_cons, List.map_append, ih]
    simp [Call.events, Event.relabel]

/-- C12: `Validate` has the structure of `Admit`.  `Validate` on a chain returns the
same error, leaves the same Attributes and emits the same events as `Admit` on the
chain in which every handler has its validation method (if any) in place of its
mutation method (if any), except that the phase observation carries the label
"validating" instead of "mutating"; in particular the per-handler observations are
the same sequence. -/
theorem validate_is_admit_on_validators {Obj Err : Type}
    (chain : chainAdmissionHandler Obj Err) (a : Attributes Obj) :
    (chain.Validate a).ret = ((validatorsAsMutators chain).Admit a).ret ∧
    (chain.Validate a).attrs = ((validatorsAsMutators chain).Admit a).attrs ∧
    (chain.Validate a).trace =
      ((validatorsAsMutators chain).Admit a).trace.map (Event.relabel stepValidating) ∧
    controllerObservations (chain.Validate a).trace =
      controllerObservations ((validatorsAsMutators chain).Admit a).trace ∧
    observations (chain.Validate a).trace =
      observations ((validatorsAsMutators chain).Admit a).trace ∧
    stepObservations (chain.Validate a).trace =
      [((chain.Validate a).ret.isSome, (chain.Validate a).attrs, "validating")] ∧
    stepObservations ((validatorsAsMutators chain).Admit a).trace =
      [((chain.Validate a).ret.isSome, (chain.Validate a).attrs, "mutating")] := by
  have hloop : admitLoop (validatorsAsMutators chain) 0 none a =
      phaseLoop NamedHandler.Validate chain 0 none a := by
    rw [admitLoop_validatorsAsMutators, validateLoop_eq_phaseLoop]
  have hA : (validatorsAsMutators chain).Admit a =
      runPhase NamedHandler.Validate stepMutating chain a := by
    simp only [chainAdmissionHandler.Admit, runPhase, hloop]
  rw [hA, Validate_eq_runPhase]
  refine ⟨rfl, rfl, ?_, ?_, ?_, ?_, ?_⟩
  · rw [runPhase_trace, runPhase_trace, List.map_append, relabel_calls]
    rfl
  · rw [runPhase_trace, runPhase_trace, controllerObservations_trace,
      controllerObservations_trace]
  · simp only [runPhase_trace, observations, List.filterMap_append]
    rfl
  · exact (runPhase_step_observation NamedHandler.Validate stepValidating chain a).1
  · exact (runPhase_step_observation NamedHandler.Validate stepMutating chain a).1


/-- An applicable handler is invoked when no applicable handler before it fails. -/
theorem callsOf_mem_of_no_earlier_fail {Obj Err : Type} (cap : Capability Obj Err)
    (hs : List (NamedHandler Obj Err)) :
    ∀ (idx : Nat) (a : Attributes Obj) (i : Nat) (h : NamedHandler Obj Err)
      (m : Method Obj Err),
      hs[i]? = some h → applicable cap a.operation h = some m →
      (∀ (j : Nat) (h' : NamedHandler Obj Err) (m' : Method Obj Err), j < i →
        hs[j]? = some h' → applicable cap a.operation h' = some m' →
        m'.error (threaded cap (hs.take j) a) = none) →
      idx + i ∈ (callsOf cap hs idx a).map Call.idx := by
  induction hs with
  | nil => intro idx a i h m hget; simp at hget
  | cons h0 rest ih =>
    intro idx a i h m hget happ hfirst
    cases i with
    | zero =>
      simp at hget
      subst hget
      cases he : m.error a with
      | some e => rw [callsOf_fail cap h0 rest idx a m e happ he]; simp
      | none => rw [callsOf_ok cap h0 rest idx a m happ he]; simp
    | succ i =>
      have hget1 : rest[i]? = some h := by simpa using hget
      have hidx : idx + 1 + i = idx + (i + 1) := by omega
      cases hm : applicable cap a.operation h0 with
      | none =>
        rw [callsOf_skip cap h0 rest idx a hm, ← hidx]
        refine ih (idx + 1) a i h m hget1 happ ?_
        intro j h' m' hj hgetj happj
        have := hfirst (j + 1) h' m' (by omega) (by simpa using hgetj) happj
        rwa [List.take_succ_cons, threaded_skip cap h0 _ a hm] at this
      | some m0 =>
        have he0 : m0.error a = none := by
          have := hfirst 0 h0 m0 (by omega) (by simp) hm
          simpa [threaded] using this
        rw [callsOf_ok cap h0 rest idx a m0 hm he0, List.map_cons, ← hidx]
        refine List.mem_cons_of_mem _ (ih (idx + 1) (m0.after a) i h m hget1
          (by rw [after_operation]; exact happ) ?_)
        intro j h' m' hj hgetj happj
        rw [after_operation] at happj
        have := hfirst (j + 1) h' m' (by omega) (by simpa using hgetj) happj
        rwa [List.take_succ_cons, threaded_apply cap h0 _ a m0 hm] at this

/-- Once per phase, for either phase. -/
theorem runPhase_once {Obj Err : Type} (cap : Capability Obj Err) (step : String)
    (chain : List (NamedHandler Obj Err)) (a : Attributes Obj) :
    (∀ i, (invokedIdxs (runPhase cap step chain a).trace).count i ≤ 1) ∧
    (∀ i, (observedIdxs (runPhase cap step chain a).trace).count i ≤ 1) ∧
    ∀ (i : Nat) (h : NamedHandler Obj Err) (m : Method Obj Err),
      chain[i]? = some h → applicable cap a.operation h = some m →
      (∀ (j : Nat) (h' : NamedHandler Obj Err) (m' : Method Obj Err), j < i →
        chain[j]? = some h' → applicable cap a.operation h' = some m' →
        m'.error (threaded cap (chain.take j) a) = none) →
      (invokedIdxs (runPhase cap step chain a).trace).count i = 1 ∧
      (observedIdxs (runPhase cap step chain a).trace).count i = 1 := by
  have hnodup : ((callsOf cap chain 0 a).map Call.idx).Nodup :=
    (callsOf_idx_increasing cap chain 0 a).imp (fun hlt => Nat.ne_of_lt hlt)
  rw [runPhase_trace, invokedIdxs_trace, observedIdxs_trace]
  refine ⟨fun i => List.nodup_iff_count_le_one.1 hnodup i,
    fun i => List.nodup_iff_count_le_one.1 hnodup i, ?_⟩
  intro i h m hget happ hfirst
  have hmem := callsOf_mem_of_no_earlier_fail cap chain 0 a i h m hget happ hfirst
  rw [Nat.zero_add] at hmem
  exact ⟨List.count_eq_one_of_mem hnodup hmem, List.count_eq_one_of_mem hnodup hmem⟩

/-- C13: once per phase.  In every call of `Admit` or `Validate` each position of the
chain is invoked at most once and observed at most once.  A handler that accepts the
operation and has both capabilities is invoked exactly once by `Admit` when no
applicable mutator before it fails, and exactly once by `Validate` when no applicable
validator before it fails, each time with exactly one per-handler observation. -/
theorem once_per_phase {Obj Err : Type}
    (chain : chainAdmissionHandler Obj Err) (a : Attributes Obj) :
    ((∀ i, (invokedIdxs (chain.Admit a).trace).count i ≤ 1) ∧
      (∀ i, (observedIdxs (chain.Admit a).trace).count i ≤ 1) ∧
      (∀ i, (invokedIdxs (chain.Validate a).trace).count i ≤ 1) ∧
      (∀ i, (observedIdxs (chain.Validate a).trace).count i ≤ 1)) ∧
    ∀ (i : Nat) (h : NamedHandler Obj Err) (m v : Method Obj Err),
      chain[i]? = some h → h.Handles a.operation = true →
      h.Admit = some m → h.Validate = some v →
      ((∀ (j : Nat) (h' : NamedHandler Obj Err) (m' : Method Obj Err), j < i →
          chain[j]? = some h' → h'.Handles a.operation = true → h'.Admit = some m' →
          m'.error (threaded NamedHandler.Admit (chain.take j) a) = none) →
        (invokedIdxs (chain.Admit a).trace).count i = 1 ∧
        (observedIdxs (chain.Admit a).trace).count i = 1) ∧
      ((∀ (j : Nat) (h' : NamedHandler Obj Err) (v' : Method Obj Err), j < i →
          chain[j]? = some h' → h'.Handles a.operation = true → h'.Validate = some v' →
          v'.error (threaded NamedHandler.Validate (chain.take j) a) = none) →
        (invokedIdxs (chain.Validate a).trace).count i = 1 ∧
        (observedIdxs (chain.Validate a).trace).count i = 1) := by
  rw [Admit_eq_runPhase, Validate_eq_runPhase]
  have hA := runPhase_once NamedHandler.Admit stepMutating chain a
  have hV := runPhase_once NamedHandler.Validate stepValidating chain a
  refine ⟨⟨hA.1, hA.2.1, hV.1, hV.2.1⟩, ?_⟩
  intro i h m v hget hh hm hv
  constructor
  · intro hfirst
    refine hA.2.2 i h m hget ((applicable_eq_some_iff _ _ _ _).2 ⟨hh, hm⟩) ?_
    intro j h' m' hj hgetj happj
    rw [applicable_eq_some_iff] at happj
    exact hfirst j h' m' hj hgetj happj.1 happj.2
  · intro hfirst
    refine hV.2.2 i h v hget ((applicable_eq_some_iff _ _ _ _).2 ⟨hh, hv⟩) ?_
    intro j h' m' hj hgetj happj
    rw [applicable_eq_some_iff] at happj
    exact hfirst j h' m' hj hgetj happj.1 happj.2

/-- Witness for C13 on the chain [good, bad, probe]: `good`, at position 0, accepts
Create and has both capabilities; no handler precedes it, and each phase invokes and
observes it exactly once. -/
theorem once_per_phase_witness :
    exChain[0]? = some good ∧ good.Handles exAttrs.operation = true ∧
    ((invokedIdxs (exChain.Admit exAttrs).trace).count 0 = 1 ∧
      (observedIdxs (exChain.Admit exAttrs).trace).count 0 = 1) ∧
    ((invokedIdxs (exChain.Validate exAttrs).trace).count 0 = 1 ∧
      (observedIdxs (exChain.Validate exAttrs).trace).count 0 = 1) :=
  ⟨rfl, rfl,
    ((once_per_phase exChain exAttrs).2 0 good (fun a => (a.object + 1, none))
      (fun a => (a.object, none)) rfl rfl rfl rfl).1
      (fun j _ _ hj => absurd hj (Nat.not_lt_zero j)),
    ((once_per_phase exChain exAttrs).2 0 good (fun a => (a.object + 1, none))
      (fun a => (a.object, none)) rfl rfl rfl rfl).2
      (fun j _ _ hj => absurd hj (Nat.not_lt_zero j))⟩

/-- C14: empty chain.  On the chain with zero handlers `Admit` and `Validate` return
nil for every Attributes, leave them as they are, and emit no per-handler observation
and exactly one phase observation, with failed = false; `Handles` returns false for
every operation. -/
theorem empty_chain {Obj Err : Type} (a : Attributes Obj) (op : Operation) :
    (NewChainHandler ([] : List (NamedHandler Obj Err))).Admit a =
      ⟨none, a, [Event.ObserveAdmissionStep false a "mutating"]⟩ ∧
    (NewChainHandler ([] : List (NamedHandler Obj Err))).Validate a =
      ⟨none, a, [Event.ObserveAdmissionStep false a "validating"]⟩ ∧
    observations ((NewChainHandler ([] : List (NamedHandler Obj Err))).Admit a).trace = [] ∧
    observations ((NewChainHandler ([] : List (NamedHandler Obj Err))).Validate a).trace = [] ∧
    stepObservations ((NewChainHandler ([] : List (NamedHandler Obj Err))).Admit a).trace =
      [(false, a, "mutating")] ∧
    stepObservations ((NewChainHandler ([] : List (NamedHandler Obj Err))).Validate a).trace =
      [(false, a, "validating")] ∧
    chainAdmissionHandler.Handles (NewChainHandler ([] : List (NamedHandler Obj Err))) op =
      false :=
  ⟨rfl, rfl, rfl, rfl, rfl, rfl, rfl⟩


/-- A phase whose methods leave the Attributes as they are leaves them as they are. -/
theorem phaseLoop_attrs_of_readonly {Obj Err : Type} (cap : Capability Obj Err)
    (hs : List (NamedHandler Obj Err))
    (hro : ∀ (h : NamedHandler Obj Err) (m : Method Obj Err), h ∈ hs → cap h = some m →
      ∀ s : Attributes Obj, m.after s = s) :
    ∀ (idx : Nat) (a : Attributes Obj), (phaseLoop cap hs idx none a).attrs = a := by
  induction hs with
  | nil => intro idx a; rfl
  | cons h rest ih =>
    have ih1 := ih (fun h' m' hmem hc => hro h' m' (List.mem_cons_of_mem _ hmem) hc)
    intro idx a
    cases hm : applicable cap a.operation h with
    | none => rw [phaseLoop_skip cap h rest idx none a hm]; exact ih1 _ _
    | some m =>
      have hsame : m.after a = a :=
        hro h m (List.mem_cons_self _ _) ((applicable_eq_some_iff _ _ _ _).1 hm).2 a
      cases he : m.error a with
      | some e => rw [phaseLoop_fail cap h rest idx none a m e hm he]; exact hsame
      | none =>
        rw [phaseLoop_ok cap h rest idx none a m hm he]
        show (phaseLoop cap rest (idx + 1) none (m.after a)).attrs = a
        rw [hsame]
        exact ih1 _ _

/-- C16: the executor adds no mutation of its own in the validation phase.  If every
validation method of the chain leaves the Attributes unchanged, then `Validate` leaves
the Attributes (operation, resource identity and proposed object) unchanged, whether
it returns nil or an error. -/
theorem validate_adds_no_mutation {Obj Err : Type}
    (chain : chainAdmissionHandler Obj Err) (a : Attributes Obj)
    (hro : ∀ (h : NamedHandler Obj Err) (v : Method Obj Err), h ∈ chain →
      h.Validate = some v → ∀ s : Attributes Obj, v.after s = s) :
    (chain.Validate a).attrs = a ∧
    (chain.Validate a).attrs.operation = a.operation ∧
    (chain.Validate a).attrs.resource = a.resource ∧
    (chain.Validate a).attrs.object = a.object := by
  have h : (chain.Validate a).attrs = a := by
    rw [Validate_eq_runPhase, runPhase_attrs]
    exact phaseLoop_attrs_of_readonly NamedHandler.Validate chain hro 0 a
  rw [h]
  exact ⟨rfl, rfl, rfl, rfl⟩

/-- Witness for C16 on [good, bad, probe], whose validation methods all return the
object they receive: `Validate` fails with the error of `bad` and leaves the
Attributes unchanged. -/
theorem validate_adds_no_mutation_witness :
    (exChain.Validate exAttrs).ret = some "invalid" ∧
    ((exChain.Validate exAttrs).attrs = exAttrs ∧
      (exChain.Validate exAttrs).attrs.operation = exAttrs.operation ∧
      (exChain.Validate exAttrs).attrs.resource = exAttrs.resource ∧
      (exChain.Validate exAttrs).attrs.object = exAttrs.object) :=
  ⟨by decide, validate_adds_no_mutation exChain exAttrs (by
    intro h v hmem hv s
    simp only [exChain, NewChainHandler, List.mem_cons, List.mem_singleton,
      List.not_mem_nil, or_false] at hmem
    rcases hmem with rfl | rfl | rfl
    · have hv1 : v = fun a => (a.object, none) := by simpa [good] using hv.symm
      subst hv1
      rfl
    · have hv1 : v = fun a => (a.object, some "invalid") := by simpa [bad] using hv.symm
      subst hv1
      rfl
    · have hv1 : v = fun a => (a.object, none) := by simpa [probe] using hv.symm
      subst hv1
      rfl)⟩


theorem observations_trace {Obj Err : Type} (calls : List (Call Obj Err)) (failed : Bool)
    (s : Attributes Obj) (step : String) :
    observations (calls.flatMap Call.events ++ [Event.ObserveAdmissionStep failed s step]) =
      calls.map Call.observation := by
  induction calls with
  | nil => rfl
  | cons c rest ih =>
    simp only [observations] at ih
    simp [observations, Call.events, List.filterMap_cons, Event.observed?, Call.observation, ih]

theorem takesPart_eq_false {Obj Err : Type} (cap : Capability Obj Err) (op : Operation)
    (h : NamedHandler Obj Err) (hn : applicable cap op h = none) :
    takesPart cap op h = false := by
  rw [applicable_eq_none_iff] at hn
  rcases hn with hn | hn <;> simp [takesPart, hn]

theorem takesPart_eq_true {Obj Err : Type} (cap : Capability Obj Err) (op : Operation)
    (h : NamedHandler Obj Err) (m : Method Obj Err) (hm : applicable cap op h = some m) :
    takesPart cap op h = true := by
  rw [applicable_eq_some_iff] at hm
  simp [takesPart, hm.1, hm.2]

theorem calledHandlers_skip {Obj Err : Type} (cap : Capability Obj Err)
    (h : NamedHandler Obj Err) (rest : List (NamedHandler Obj Err)) (a : Attributes Obj)
    (hn : applicable cap a.operation h = none) :
    calledHandlers cap (h :: rest) a = calledHandlers cap rest a := by
  simp [calledHandlers, hn]

theorem calledHandlers_fail {Obj Err : Type} (cap : Capability Obj Err)
    (h : NamedHandler Obj Err) (rest : List (NamedHandler Obj Err)) (a : Attributes Obj)
    (m : Method Obj Err) (e : Err)
    (hm : applicable cap a.operation h = some m) (he : m.error a = some e) :
    calledHandlers cap (h :: rest) a = [h] := by
  simp [calledHandlers, hm, he]

theorem calledHandlers_ok {Obj Err : Type} (cap : Capability Obj Err)
    (h : NamedHandler Obj Err) (rest : List (NamedHandler Obj Err)) (a : Attributes Obj)
    (m : Method Obj Err)
    (hm : applicable cap a.operation h = some m) (he : m.error a = none) :
    calledHandlers cap (h :: rest) a = h :: calledHandlers cap rest (m.after a) := by
  simp [calledHandlers, hm, he]

/-- Reading `x :: xs` at positions above the first is reading `xs` one position lower. -/
theorem filterMap_getElem?_shift {α : Type} (x : α) (xs : List α) (n : Nat) :
    ∀ (ks : List Nat), (∀ k, k ∈ ks → n + 1 ≤ k) →
      ks.filterMap (fun k => (x :: xs)[k - n]?) =
        ks.filterMap (fun k => xs[k - (n + 1)]?) := by
  intro ks
  induction ks with
  | nil => intro _; rfl
  | cons k ks ihk =>
    intro hks
    have hk : n + 1 ≤ k := hks k (List.mem_cons_self _ _)
    have hkn : k - n = (k - (n + 1)) + 1 := by omega
    have hrest := ihk (fun k' hk' => hks k' (List.mem_cons_of_mem _ hk'))
    simp only [List.filterMap_cons, hkn, List.getElem?_cons_succ, hrest]

/-- The handlers at the invoked positions are the handlers invoked. -/
theorem handlersAt_callsOf {Obj Err : Type} (cap : Capability Obj Err)
    (hs : List (NamedHandler Obj Err)) :
    ∀ (idx : Nat) (a : Attributes Obj),
      ((callsOf cap hs idx a).map Call.idx).filterMap (fun k => hs[k - idx]?) =
        calledHandlers cap hs a := by
  induction hs with
  | nil => intro idx a; rfl
  | cons h rest ih =>
    intro idx a
    have hge : ∀ (s : Attributes Obj) (k : Nat),
        k ∈ (callsOf cap rest (idx + 1) s).map Call.idx → idx + 1 ≤ k := by
      intro s k hk
      obtain ⟨c, hc, rfl⟩ := List.mem_map.1 hk
      obtain ⟨j, _, _, hidx, _⟩ := callsOf_spec cap rest (idx + 1) s c hc
      omega
    cases hm : applicable cap a.operation h with
    | none =>
      rw [callsOf_skip cap h rest idx a hm, calledHandlers_skip cap h rest a hm,
        filterMap_getElem?_shift h rest idx _ (hge a), ih]
    | some m =>
      cases he : m.error a with
      | some e =>
        rw [callsOf_fail cap h rest idx a m e hm he, calledHandlers_fail cap h rest a m e hm he]
        simp
      | none =>
        rw [callsOf_ok cap h rest idx a m hm he, calledHandlers_ok cap h rest a m hm he,
          List.map_cons, List.filterMap_cons]
        simp only [Nat.sub_self, List.getElem?_cons_zero]
        rw [filterMap_getElem?_shift h rest idx _ (hge (m.after a)), ih]

/-- Deleting the inert handlers changes neither the result of the loop nor its
invocations, positions apart. -/
theorem phaseLoop_withoutInert {Obj Err : Type} (cap : Capability Obj Err)
    (op : Operation) (hs : List (NamedHandler Obj Err)) :
    ∀ (idx idx' : Nat) (a : Attributes Obj), a.operation = op →
      (phaseLoop cap (withoutInert cap op hs) idx' none a).ret =
        (phaseLoop cap hs idx none a).ret ∧
      (phaseLoop cap (withoutInert cap op hs) idx' none a).attrs =
        (phaseLoop cap hs idx none a).attrs ∧
      (callsOf cap (withoutInert cap op hs) idx' a).map Call.observation =
        (callsOf cap hs idx a).map Call.observation ∧
      calledHandlers cap (withoutInert cap op hs) a = calledHandlers cap hs a := by
  induction hs with
  | nil => intro idx idx' a _; exact ⟨rfl, rfl, rfl, rfl⟩
  | cons h rest ih =>
    intro idx idx' a hop
    cases hm : applicable cap a.operation h with
    | none =>
      have hdrop : withoutInert cap op (h :: rest) = withoutInert cap op rest := by
        unfold withoutInert
        exact List.filter_cons_of_neg (by rw [← hop, takesPart_eq_false cap _ h hm]; simp)
      rw [hdrop, phaseLoop_skip cap h rest idx none a hm, callsOf_skip cap h rest idx a hm,
        calledHandlers_skip cap h rest a hm]
      exact ih (idx + 1) idx' a hop
    | some m =>
      have hkeep : withoutInert cap op (h :: rest) = h :: withoutInert cap op rest := by
        unfold withoutInert
        exact List.filter_cons_of_pos (by rw [← hop, takesPart_eq_true cap _ h m hm])
      rw [hkeep]
      cases he : m.error a with
      | some e =>
        rw [phaseLoop_fail cap h _ idx none a m e hm he,
          phaseLoop_fail cap h _ idx' none a m e hm he,
          callsOf_fail cap h _ idx a m e hm he, callsOf_fail cap h _ idx' a m e hm he,
          calledHandlers_fail cap h _ a m e hm he, calledHandlers_fail cap h _ a m e hm he]
        exact ⟨rfl, rfl, rfl, rfl⟩
      | none =>
        rw [phaseLoop_ok cap h _ idx none a m hm he,
          phaseLoop_ok cap h _ idx' none a m hm he,
          callsOf_ok cap h _ idx a m hm he, callsOf_ok cap h _ idx' a m hm he,
          calledHandlers_ok cap h _ a m hm he, calledHandlers_ok cap h _ a m hm he]
        obtain ⟨h1, h2, h3, h4⟩ := ih (idx + 1) (idx' + 1) (m.after a) hop
        refine ⟨h1, h2, ?_, by rw [h4]⟩
        rw [List.map_cons, List.map_cons, h3]
        rfl

/-- Inert handlers can be removed, for either phase. -/
theorem runPhase_withoutInert {Obj Err : Type} (cap : Capability Obj Err) (step : String)
    (chain : List (NamedHandler Obj Err)) (a : Attributes Obj) :
    (runPhase cap step (withoutInert cap a.operation chain) a).ret =
      (runPhase cap step chain a).ret ∧
    (runPhase cap step (withoutInert cap a.operation chain) a).attrs =
      (runPhase cap step chain a).attrs ∧
    observations (runPhase cap step (withoutInert cap a.operation chain) a).trace =
      observations (runPhase cap step chain a).trace ∧
    handlersAt (withoutInert cap a.operation chain)
        (observedIdxs (runPhase cap step (withoutInert cap a.operation chain) a).trace) =
      handlersAt chain (observedIdxs (runPhase cap step chain a).trace) ∧
    stepObservations (runPhase cap step (withoutInert cap a.operation chain) a).trace =
      stepObservations (runPhase cap step chain a).trace := by
  obtain ⟨h1, h2, h3, h4⟩ := phaseLoop_withoutInert cap a.operation chain 0 0 a rfl
  have hret : (runPhase cap step (withoutInert cap a.operation chain) a).ret =
      (runPhase cap step chain a).ret := h1
  have hattrs : (runPhase cap step (withoutInert cap a.operation chain) a).attrs =
      (runPhase cap step chain a).attrs := h2
  refine ⟨hret, hattrs, ?_, ?_, ?_⟩
  · rw [runPhase_trace, runPhase_trace, observations_trace, observations_trace, h3]
  · rw [runPhase_trace, runPhase_trace, observedIdxs_trace, observedIdxs_trace]
    have e1 := handlersAt_callsOf cap (withoutInert cap a.operation chain) 0 a
    have e2 := handlersAt_callsOf cap chain 0 a
    simp only [Nat.sub_zero] at e1 e2
    unfold handlersAt
    rw [e1, e2, h4]
  · rw [runPhase_trace, runPhase_trace, stepObservations_trace, stepObservations_trace,
      hret, hattrs]

/-- C17: inert handlers can be removed.  Deleting from the chain every handler that
rejects the operation of the call or lacks the capability of the phase leaves the
returned error, the final Attributes, the sequence of per-handler observations (what
is reported and which handlers are observed) and the phase observation of `Admit`
(resp. `Validate`) unchanged.  Operation predicates are functions of the operation,
so they have no side effect. -/
theorem inert_handlers_removable {Obj Err : Type}
    (chain : chainAdmissionHandler Obj Err) (a : Attributes Obj) :
    (((withoutInert NamedHandler.Admit a.operation chain).Admit a).ret =
        (chain.Admit a).ret ∧
      ((withoutInert NamedHandler.Admit a.operation chain).Admit a).attrs =
        (chain.Admit a).attrs ∧
      observations ((withoutInert NamedHandler.Admit a.operation chain).Admit a).trace =
        observations (chain.Admit a).trace ∧
      handlersAt (withoutInert NamedHandler.Admit a.operation chain)
          (observedIdxs
            ((withoutInert NamedHandler.Admit a.operation chain).Admit a).trace) =
        handlersAt chain (observedIdxs (chain.Admit a).trace) ∧
      stepObservations ((withoutInert NamedHandler.Admit a.operation chain).Admit a).trace =
        stepObservations (chain.Admit a).trace) ∧
    (((withoutInert NamedHandler.Validate a.operation chain).Validate a).ret =
        (chain.Validate a).ret ∧
      ((withoutInert NamedHandler.Validate a.operation chain).Validate a).attrs =
        (chain.Validate a).attrs ∧
      observations
          ((withoutInert NamedHandler.Validate a.operation chain).Validate a).trace =
        observations (chain.Validate a).trace ∧
      handlersAt (withoutInert NamedHandler.Validate a.operation chain)
          (observedIdxs
            ((withoutInert NamedHandler.Validate a.operation chain).Validate a).trace) =
        handlersAt chain (observedIdxs (chain.Validate a).trace) ∧
      stepObservations
          ((withoutInert NamedHandler.Validate a.operation chain).Validate a).trace =
        stepObservations (chain.Validate a).trace) := by
  constructor
  · rw [Admit_eq_runPhase, Admit_eq_runPhase]
    exact runPhase_withoutInert NamedHandler.Admit stepMutating chain a
  · rw [Validate_eq_runPhase, Validate_eq_runPhase]
    exact runPhase_withoutInert NamedHandler.Validate stepValidating chain a


/-- Witness for C17: for the mutation of a Create both handlers of `inertChain` are
inert (one rejects Create, the other cannot mutate); deleting them leaves the empty
chain, `Admit` behaves the same on both, and only `Handles` tells the chains apart. -/
theorem inert_handlers_removable_witness :
    withoutInert NamedHandler.Admit exAttrs.operation inertChain = [] ∧
    chainAdmissionHandler.Handles inertChain Operation.Create = true ∧
    chainAdmissionHandler.Handles
      (withoutInert NamedHandler.Admit exAttrs.operation inertChain) Operation.Create =
      false ∧
    (((withoutInert NamedHandler.Admit exAttrs.operation inertChain).Admit exAttrs).ret =
        (inertChain.Admit exAttrs).ret ∧
      ((withoutInert NamedHandler.Admit exAttrs.operation inertChain).Admit exAttrs).attrs =
        (inertChain.Admit exAttrs).attrs ∧
      observations
          ((withoutInert NamedHandler.Admit exAttrs.operation inertChain).Admit
            exAttrs).trace =
        observations (inertChain.Admit exAttrs).trace ∧
      handlersAt (withoutInert NamedHandler.Admit exAttrs.operation inertChain)
          (observedIdxs
            ((withoutInert NamedHandler.Admit exAttrs.operation inertChain).Admit
              exAttrs).trace) =
        handlersAt inertChain (observedIdxs (inertChain.Admit exAttrs).trace) ∧
      stepObservations
          ((withoutInert NamedHandler.Admit exAttrs.operation inertChain).Admit
            exAttrs).trace =
        stepObservations (inertChain.Admit exAttrs).trace) :=
  ⟨rfl, rfl, rfl, (inert_handlers_removable inertChain exAttrs).1⟩

/-- When every invocation but the last returned nil and the call returns what the last
invocation returned, at most the last per-handler observation has failed = true, and
one has iff the call returns an error. -/
theorem calls_shape {Obj Err : Type} (calls : List (Call Obj Err)) (ret : Option Err)
    (hdrop : ∀ c, c ∈ calls.dropLast → c.ret = none)
    (hlast : ret = calls.getLast?.bind Call.ret) :
    (∀ o, o ∈ (calls.map Call.observation).dropLast → o.1 = false) ∧
    ((calls.map Call.observation).filter (fun o => o.1)).length ≤ 1 ∧
    (ret.isSome = true ↔ ∃ o, o ∈ calls.map Call.observation ∧ o.1 = true) := by
  rcases List.eq_nil_or_concat calls with hnil | ⟨front, c, hcat⟩
  · subst hnil
    simp at hlast
    subst hlast
    simp
  · rw [List.concat_eq_append] at hcat
    subst hcat
    rw [List.dropLast_concat] at hdrop
    rw [List.getLast?_concat] at hlast
    have hlast1 : ret = c.ret := hlast
    subst hlast1
    have hfront : ∀ o, o ∈ front.map Call.observation → o.1 = false := by
      intro o ho
      obtain ⟨d, hd, rfl⟩ := List.mem_map.1 ho
      show d.ret.isSome = false
      rw [hdrop d hd]
      rfl
    have hfilter : (front.map Call.observation).filter (fun o => o.1) = [] := by
      rw [List.filter_eq_nil_iff]
      intro o ho
      rw [hfront o ho]
      simp
    refine ⟨?_, ?_, ?_⟩
    · intro o ho
      rw [List.map_append, List.map_singleton, List.dropLast_concat] at ho
      exact hfront o ho
    · rw [List.map_append, List.filter_append, hfilter, List.nil_append, List.map_singleton]
      exact List.length_filter_le _ _
    · constructor
      · intro hsome
        exact ⟨c.observation, by simp, hsome⟩
      · rintro ⟨o, ho, htrue⟩
        rw [List.map_append, List.mem_append] at ho
        rcases ho with ho | ho
        · rw [hfront o ho] at htrue
          cases htrue
        · simp only [List.map_singleton, List.mem_singleton] at ho
          subst ho
          exact htrue

/-- Shape of the trace, for either phase. -/
theorem runPhase_shape {Obj Err : Type} (cap : Capability Obj Err) (step : String)
    (chain : List (NamedHandler Obj Err)) (a : Attributes Obj) :
    (∃ pre : List (Event Obj Err),
      (runPhase cap step chain a).trace =
        pre ++ [Event.ObserveAdmissionStep (runPhase cap step chain a).ret.isSome
          (runPhase cap step chain a).attrs step] ∧
      stepObservations pre = [] ∧
      observations pre = observations (runPhase cap step chain a).trace) ∧
    (∀ o, o ∈ (observations (runPhase cap step chain a).trace).dropLast → o.1 = false) ∧
    ((observations (runPhase cap step chain a).trace).filter (fun o => o.1)).length ≤ 1 ∧
    ((runPhase cap step chain a).ret.isSome = true ↔
      ∃ o, o ∈ observations (runPhase cap step chain a).trace ∧ o.1 = true) := by
  have hshape := calls_shape (callsOf cap chain 0 a) (runPhase cap step chain a).ret
    (callsOf_dropLast_ok cap chain 0 a) (phaseLoop_last_call cap chain 0 a).1
  have hobs : observations (runPhase cap step chain a).trace =
      (callsOf cap chain 0 a).map Call.observation := by
    rw [runPhase_trace, observations_trace]
  rw [hobs]
  refine ⟨⟨(callsOf cap chain 0 a).flatMap Call.events, runPhase_trace cap step chain a,
    stepObservations_calls _, ?_⟩, hshape⟩
  have := observations_trace (callsOf cap chain 0 a) false a step
  simp only [observations, List.filterMap_append] at this ⊢
  simpa [Event.observed?] using this

/-- C18: shape of the observation trace.  In every call of `Admit` or `Validate` the
phase observation is the last emission, after every per-handler observation, and the
only phase observation; every per-handler observation but the last has
failed = false, so at most one has failed = true and, when one has, it is the last;
the phase observation has failed = true iff a per-handler observation has
failed = true. -/
theorem observation_trace_shape {Obj Err : Type}
    (chain : chainAdmissionHandler Obj Err) (a : Attributes Obj) :
    ((∃ (pre : List (Event Obj Err)) (failed : Bool),
        (chain.Admit a).trace =
          pre ++ [Event.ObserveAdmissionStep failed (chain.Admit a).attrs stepMutating] ∧
        stepObservations pre = [] ∧
        observations pre = observations (chain.Admit a).trace ∧
        (failed = true ↔ ∃ o, o ∈ observations (chain.Admit a).trace ∧ o.1 = true)) ∧
      (∀ o, o ∈ (observations (chain.Admit a).trace).dropLast → o.1 = false) ∧
      ((observations (chain.Admit a).trace).filter (fun o => o.1)).length ≤ 1) ∧
    ((∃ (pre : List (Event Obj Err)) (failed : Bool),
        (chain.Validate a).trace =
          pre ++
            [Event.ObserveAdmissionStep failed (chain.Validate a).attrs stepValidating] ∧
        stepObservations pre = [] ∧
        observations pre = observations (chain.Validate a).trace ∧
        (failed = true ↔ ∃ o, o ∈ observations (chain.Validate a).trace ∧ o.1 = true)) ∧
      (∀ o, o ∈ (observations (chain.Validate a).trace).dropLast → o.1 = false) ∧
      ((observations (chain.Validate a).trace).filter (fun o => o.1)).length ≤ 1) := by
  constructor
  · rw [Admit_eq_runPhase]
    obtain ⟨⟨pre, htr, hstep, hobs⟩, hdrop, hone, hiff⟩ :=
      runPhase_shape NamedHandler.Admit stepMutating chain a
    exact ⟨⟨pre, _, htr, hstep, hobs, hiff⟩, hdrop, hone⟩
  · rw [Validate_eq_runPhase]
    obtain ⟨⟨pre, htr, hstep, hobs⟩, hdrop, hone, hiff⟩ :=
      runPhase_shape NamedHandler.Validate stepValidating chain a
    exact ⟨⟨pre, _, htr, hstep, hobs, hiff⟩, hdrop, hone⟩


/-- The loop on a concatenation: the loop on the first part and, when that returns nil,
the loop on the second part from where the first one ended. -/
theorem phaseLoop_append {Obj Err : Type} (cap : Capability Obj Err)
    (c1 c2 : List (NamedHandler Obj Err)) :
    ∀ (idx : Nat) (a : Attributes Obj),
      (phaseLoop cap (c1 ++ c2) idx none a).ret =
        (if (phaseLoop cap c1 idx none a).ret.isSome then (phaseLoop cap c1 idx none a).ret
         else (phaseLoop cap c2 (idx + c1.length) none
           (phaseLoop cap c1 idx none a).attrs).ret) ∧
      (phaseLoop cap (c1 ++ c2) idx none a).attrs =
        (if (phaseLoop cap c1 idx none a).ret.isSome then (phaseLoop cap c1 idx none a).attrs
         else (phaseLoop cap c2 (idx + c1.length) none
           (phaseLoop cap c1 idx none a).attrs).attrs) ∧
      callsOf cap (c1 ++ c2) idx a =
        callsOf cap c1 idx a ++
          (if (phaseLoop cap c1 idx none a).ret.isSome then []
           else callsOf cap c2 (idx + c1.length) (phaseLoop cap c1 idx none a).attrs) := by
  induction c1 with
  | nil => intro idx a; simp [phaseLoop, callsOf]
  | cons h rest ih =>
    intro idx a
    have hlen : idx + (h :: rest).length = idx + 1 + rest.length := by
      simp only [List.length_cons]; omega
    rw [hlen, List.cons_append]
    cases hm : applicable cap a.operation h with
    | none =>
      rw [phaseLoop_skip cap h _ idx none a hm, phaseLoop_skip cap h _ idx none a hm,
        callsOf_skip cap h _ idx a hm, callsOf_skip cap h _ idx a hm]
      exact ih (idx + 1) a
    | some m =>
      cases he : m.error a with
      | some e =>
        rw [phaseLoop_fail cap h _ idx none a m e hm he,
          phaseLoop_fail cap h _ idx none a m e hm he,
          callsOf_fail cap h _ idx a m e hm he, callsOf_fail cap h _ idx a m e hm he]
        simp
      | none =>
        rw [phaseLoop_ok cap h _ idx none a m hm he, phaseLoop_ok cap h _ idx none a m hm he,
          callsOf_ok cap h _ idx a m hm he, callsOf_ok cap h _ idx a m hm he]
        obtain ⟨h1, h2, h3⟩ := ih (idx + 1) (m.after a)
        refine ⟨h1, h2, ?_⟩
        rw [h3]
        rfl

/-- Starting the loop at another position changes neither what it returns nor the
Attributes it leaves, and moves the positions of its invocations. -/
theorem phaseLoop_shift {Obj Err : Type} (cap : Capability Obj Err)
    (hs : List (NamedHandler Obj Err)) (n : Nat) :
    ∀ (idx : Nat) (a : Attributes Obj),
      (phaseLoop cap hs (idx + n) none a).ret = (phaseLoop cap hs idx none a).ret ∧
      (phaseLoop cap hs (idx + n) none a).attrs = (phaseLoop cap hs idx none a).attrs ∧
      (callsOf cap hs (idx + n) a).map Call.observation =
        (callsOf cap hs idx a).map Call.observation ∧
      (callsOf cap hs (idx + n) a).map Call.idx =
        ((callsOf cap hs idx a).map Call.idx).map (fun k => k + n) := by
  induction hs with
  | nil => intro idx a; exact ⟨rfl, rfl, rfl, rfl⟩
  | cons h rest ih =>
    intro idx a
    have hidx : idx + n + 1 = idx + 1 + n := by omega
    cases hm : applicable cap a.operation h with
    | none =>
      rw [phaseLoop_skip cap h _ _ none a hm, phaseLoop_skip cap h _ _ none a hm,
        callsOf_skip cap h _ _ a hm, callsOf_skip cap h _ _ a hm, hidx]
      exact ih (idx + 1) a
    | some m =>
      cases he : m.error a with
      | some e =>
        rw [phaseLoop_fail cap h _ _ none a m e hm he,
          phaseLoop_fail cap h _ _ none a m e hm he,
          callsOf_fail cap h _ _ a m e hm he, callsOf_fail cap h _ _ a m e hm he]
        exact ⟨rfl, rfl, rfl, rfl⟩
      | none =>
        rw [phaseLoop_ok cap h _ _ none a m hm he, phaseLoop_ok cap h _ _ none a m hm he,
          callsOf_ok cap h _ _ a m hm he, callsOf_ok cap h _ _ a m hm he, hidx]
        obtain ⟨h1, h2, h3, h4⟩ := ih (idx + 1) (m.after a)
        refine ⟨h1, h2, ?_, ?_⟩
        · rw [List.map_cons, List.map_cons, h3]
          rfl
        · rw [List.map_cons, List.map_cons, List.map_cons, h4]

/-- Compositionality over concatenation, for either phase. -/
theorem runPhase_append {Obj Err : Type} (cap : Capability Obj Err) (step : String)
    (c1 c2 : List (NamedHandler Obj Err)) (a : Attributes Obj) :
    (runPhase cap step (c1 ++ c2) a).ret =
      (if (runPhase cap step c1 a).ret.isSome then (runPhase cap step c1 a).ret
       else (runPhase cap step c2 (runPhase cap step c1 a).attrs).ret) ∧
    (runPhase cap step (c1 ++ c2) a).attrs =
      (if (runPhase cap step c1 a).ret.isSome then (runPhase cap step c1 a).attrs
       else (runPhase cap step c2 (runPhase cap step c1 a).attrs).attrs) ∧
    observations (runPhase cap step (c1 ++ c2) a).trace =
      observations (runPhase cap step c1 a).trace ++
        (if (runPhase cap step c1 a).ret.isSome then []
         else observations (runPhase cap step c2 (runPhase cap step c1 a).attrs).trace) ∧
    observedIdxs (runPhase cap step (c1 ++ c2) a).trace =
      observedIdxs (runPhase cap step c1 a).trace ++
        (if (runPhase cap step c1 a).ret.isSome then []
         else (observedIdxs
           (runPhase cap step c2 (runPhase cap step c1 a).attrs).trace).map
             (fun k => k + c1.length)) := by
  obtain ⟨h1, h2, h3⟩ := phaseLoop_append cap c1 c2 0 a
  obtain ⟨s1, s2, s3, s4⟩ :=
    phaseLoop_shift cap c2 c1.length 0 (phaseLoop cap c1 0 none a).attrs
  rw [s1] at h1
  rw [s2] at h2
  simp only [runPhase_trace, observations_trace, observedIdxs_trace]
  simp only [runPhase_ret, runPhase_attrs]
  refine ⟨h1, h2, ?_, ?_⟩
  · rw [h3, List.map_append]
    by_cases hf : (phaseLoop cap c1 0 none a).ret.isSome = true
    · simp [hf]
    · simp only [hf, if_false, Bool.false_eq_true]
      rw [s3]
  · rw [h3, List.map_append]
    by_cases hf : (phaseLoop cap c1 0 none a).ret.isSome = true
    · simp [hf]
    · simp only [hf, if_false, Bool.false_eq_true]
      rw [s4]

/-- C19: compositionality over concatenation.  For all chains `c1`, `c2` and
Attributes `a`, the error returned by `Admit` on `c1 ++ c2` is the error returned by
`Admit` on `c1` when that is non-nil, and otherwise the error returned by `Admit` on
`c2` run on the Attributes left by `c1`; the same holds for the Attributes left; the
per-handler observations of `c1 ++ c2` are those of `c1` followed, only when `c1`
succeeded, by those of `c2` (observed at their positions moved by the length of
`c1`).  The same holds for `Validate`. -/
theorem compositional_over_concatenation {Obj Err : Type}
    (c1 c2 : chainAdmissionHandler Obj Err) (a : Attributes Obj) :
    (((c1 ++ c2 : chainAdmissionHandler Obj Err).Admit a).ret =
        (if (c1.Admit a).ret.isSome then (c1.Admit a).ret
         else (c2.Admit (c1.Admit a).attrs).ret) ∧
      ((c1 ++ c2 : chainAdmissionHandler Obj Err).Admit a).attrs =
        (if (c1.Admit a).ret.isSome then (c1.Admit a).attrs
         else (c2.Admit (c1.Admit a).attrs).attrs) ∧
      observations ((c1 ++ c2 : chainAdmissionHandler Obj Err).Admit a).trace =
        observations (c1.Admit a).trace ++
          (if (c1.Admit a).ret.isSome then []
           else observations (c2.Admit (c1.Admit a).attrs).trace) ∧
      observedIdxs ((c1 ++ c2 : chainAdmissionHandler Obj Err).Admit a).trace =
        observedIdxs (c1.Admit a).trace ++
          (if (c1.Admit a).ret.isSome then []
           else (observedIdxs (c2.Admit (c1.Admit a).attrs).trace).map
             (fun k => k + c1.length))) ∧
    (((c1 ++ c2 : chainAdmissionHandler Obj Err).Validate a).ret =
        (if (c1.Validate a).ret.isSome then (c1.Validate a).ret
         else (c2.Validate (c1.Validate a).attrs).ret) ∧
      ((c1 ++ c2 : chainAdmissionHandler Obj Err).Validate a).attrs =
        (if (c1.Validate a).ret.isSome then (c1.Validate a).attrs
         else (c2.Validate (c1.Validate a).attrs).attrs) ∧
      observations ((c1 ++ c2 : chainAdmissionHandler Obj Err).Validate a).trace =
        observations (c1.Validate a).trace ++
          (if (c1.Validate a).ret.isSome then []
           else observations (c2.Validate (c1.Validate a).attrs).trace) ∧
      observedIdxs ((c1 ++ c2 : chainAdmissionHandler Obj Err).Validate a).trace =
        observedIdxs (c1.Validate a).trace ++
          (if (c1.Validate a).ret.isSome then []
           else (observedIdxs (c2.Validate (c1.Validate a).attrs).trace).map
             (fun k => k + c1.length))) := by
  constructor
  · simp only [Admit_eq_runPhase]
    exact runPhase_append NamedHandler.Admit stepMutating c1 c2 a
  · simp only [Validate_eq_runPhase]
    exact runPhase_append NamedHandler.Validate stepValidating c1 c2 a


end admission
